import Mathlib

/-!
# Invoiced API client: transport core, error decoder, link-header cursors, sort builder

A shallow embedding of `api.go`, `sort.go` and the `ListAll` loops of
`subscriptions.go` / `transactions.go`.

Modelling conventions

* A Go `string` is a `Str`, the list of its Unicode code points (well-formed UTF-8
  text).  Byte-wise comparison of UTF-8 text coincides with the lexicographic
  order of code points, and every separator the code searches for is ASCII, so
  byte offsets and code-point offsets cut the text at the same places.
* A Go `error` is an `Option GoError`; `none` is `nil`.
* A run-time panic (index or slice out of range) is the `none` of an `Option`
  result.
* A Go `map[string]V` is an association list `GoMap V` with at most one entry per
  key; `GoMap.set` is `m[k] = v`, `GoMap.get` is `m[k]` (zero value when absent).
* The network and the standard library calls that talk to it are a `Network`
  value passed explicitly.
* Credentials travel as the `Authorization` header `SetBasicAuth` writes;
  `Request.BasicAuth` is what a server reads back from it, as bytes.
-/

namespace Invoiced

/-- Text of a Go string: its code points in order. -/
abbrev Str := List Char

/-! ## Go values shared by the whole package -/

/-- Modelled from the spec: the declaration of `APIError` is not among the sources;
the spec gives the structured error payload the string fields `type` and
`message`, which is what the decoder fills here. -/
structure APIError where
  Type_ : Str
  Message : Str
  deriving DecidableEq, Repr

/-- Error values that flow through the package. -/
inductive GoError where
  /-- Failure reported by an `io.Reader`. -/
  | readError (text : Str)
  /-- Failure reported by `json.Unmarshal`. -/
  | jsonError (text : Str)
  /-- Failure reported by `http.NewRequest`. -/
  | requestError (text : Str)
  /-- Failure reported by `http.Client.Do`. -/
  | transportError (text : Str)
  /-- Failure `strconv.ErrSyntax` of `strconv.ParseInt`. -/
  | numSyntax (text : Str)
  /-- Failure `strconv.ErrRange` of `strconv.ParseInt`. -/
  | numRange (text : Str)
  /-- Result of `errors.New(e.Error())` for an `APIError` value `e`: an error whose
  text is the rendering of `e` (the `Error` method is not among the sources). -/
  | apiError (e : APIError)
  deriving DecidableEq, Repr

/-- An `io.Reader`: the bytes it still has to deliver, and the failure (if any) it
reports once they are delivered instead of a clean end of file. -/
structure Reader where
  unread : Str
  failure : Option GoError
  deriving DecidableEq, Repr

/-- Model of `ioutil.ReadAll`: delivers everything that is unread, together with
the reader's failure, and leaves the reader drained. -/
def ioutilReadAll (r : Reader) : Str × Option GoError × Reader :=
  (r.unread, r.failure, { r with unread := [] })

/-- A reader over a complete, healthy body. -/
def Reader.ofBody (body : Str) : Reader := { unread := body, failure := none }

/-! ## Go maps as association lists -/

/-- A Go map with string keys. -/
abbrev GoMap (V : Type) := List (Str × V)

/-- Map assignment `m[k] = v`: overwrite the entry of `k`, or add one. -/
def GoMap.set {V : Type} : GoMap V → Str → V → GoMap V
  | [], k, v => [(k, v)]
  | (k', v') :: rest, k, v =>
    if k' = k then (k, v) :: rest else (k', v') :: GoMap.set rest k v

/-- Map lookup `v, ok := m[k]`. -/
def GoMap.find {V : Type} : GoMap V → Str → Option V
  | [], _ => none
  | (k', v') :: rest, k => if k' = k then some v' else GoMap.find rest k

/-- Map read `m[k]` of a `map[string]string`: the empty string when `k` is absent. -/
def GoMap.get (m : GoMap Str) (k : Str) : Str :=
  (GoMap.find m k).getD []

/-- Keys of the map, in the order a `range` loop happens to visit them. -/
def GoMap.keys {V : Type} (m : GoMap V) : List Str := m.map Prod.fst

/-! ## Requests, responses and the network -/

/-- The parts of an `http.Request` the package sets. -/
structure Request where
  Method : Str
  URL : Str
  Body : Option Reader
  /-- Header fields under their canonical names. -/
  Header : GoMap Str
  deriving DecidableEq, Repr

/-- The parts of an `http.Response` the package reads. -/
structure Response where
  StatusCode : Int
  /-- Header fields under their canonical names. -/
  Header : GoMap Str
  Body : Reader
  deriving DecidableEq, Repr

/-- Model of `Header.Get`: the value stored under the name, or the empty string. -/
def Response.headerGet (resp : Response) (name : Str) : Str :=
  GoMap.get resp.Header name

/-- What lies outside the package: which URLs `http.NewRequest` accepts, and what
`http.Client.Do` answers to a request. -/
structure Network where
  urlParses : Str → Bool
  roundTrip : Request → Except GoError Response

/-- Model of `http.NewRequest`: fails when the URL does not parse. -/
def httpNewRequest (net : Network) (method url : Str) (body : Option Reader) :
    Except GoError Request :=
  if net.urlParses url then
    .ok { Method := method, URL := url, Body := body, Header := [] }
  else .error (.requestError url)

/-- Model of `Request.Header.Set`. -/
def Request.headerSet (req : Request) (name value : Str) : Request :=
  { req with Header := GoMap.set req.Header name value }

/-! ## `net/http` basic authentication -/

/-- Bytes of the UTF-8 encoding of a code point. -/
def utf8Bytes (c : Char) : List Nat :=
  let n := c.toNat
  if n < 0x80 then [n]
  else if n < 0x800 then [0xC0 + n / 64, 0x80 + n % 64]
  else if n < 0x10000 then [0xE0 + n / 4096, 0x80 + n / 64 % 64, 0x80 + n % 64]
  else [0xF0 + n / 262144, 0x80 + n / 4096 % 64, 0x80 + n / 64 % 64, 0x80 + n % 64]

/-- The bytes of a Go string: the UTF-8 encoding of its text. -/
def utf8Encode (s : Str) : List Nat := (s.map utf8Bytes).flatten

/-- The character of a six-bit value in the standard base64 alphabet. -/
def base64Char (n : Nat) : Char :=
  "ABCDEFGHIJKLMNOPQRSTUVWXYZabcdefghijklmnopqrstuvwxyz0123456789+/".toList.getD n '='

/-- Model of `base64.StdEncoding.EncodeToString`: three bytes become four
characters, and a last group of one or two bytes is padded with `=`. -/
def base64Encode : List Nat → Str
  | [] => []
  | [a] => [base64Char (a / 4), base64Char (a % 4 * 16), '=', '=']
  | [a, b] => [base64Char (a / 4), base64Char (a % 4 * 16 + b / 16), base64Char (b % 16 * 4), '=']
  | a :: b :: c :: rest =>
    base64Char (a / 4) :: base64Char (a % 4 * 16 + b / 16) ::
      base64Char (b % 16 * 4 + c / 64) :: base64Char (c % 64) :: base64Encode rest

/-- The six-bit value of a character of the standard base64 alphabet. -/
def base64Value (c : Char) : Option Nat :=
  if 'A' ≤ c ∧ c ≤ 'Z' then some (c.toNat - 'A'.toNat)
  else if 'a' ≤ c ∧ c ≤ 'z' then some (c.toNat - 'a'.toNat + 26)
  else if '0' ≤ c ∧ c ≤ '9' then some (c.toNat - '0'.toNat + 52)
  else if c = '+' then some 62
  else if c = '/' then some 63
  else none

/-- Decoding of base64 text without line breaks, four characters at a time; the
padding `=` is accepted in the last group only. -/
def base64DecodeGroups : Str → Option (List Nat)
  | [] => some []
  | c1 :: c2 :: c3 :: c4 :: rest =>
    if c3 = '=' ∧ c4 = '=' ∧ rest = [] then
      match base64Value c1, base64Value c2 with
      | some s1, some s2 => some [s1 * 4 + s2 / 16]
      | _, _ => none
    else if c4 = '=' ∧ rest = [] then
      match base64Value c1, base64Value c2, base64Value c3 with
      | some s1, some s2, some s3 => some [s1 * 4 + s2 / 16, s2 % 16 * 16 + s3 / 4]
      | _, _, _ => none
    else
      match base64Value c1, base64Value c2, base64Value c3, base64Value c4,
        base64DecodeGroups rest with
      | some s1, some s2, some s3, some s4, some bytes =>
        some ((s1 * 4 + s2 / 16) :: (s2 % 16 * 16 + s3 / 4) :: (s3 % 4 * 64 + s4) :: bytes)
      | _, _, _, _, _ => none
  | _ => none

/-- Model of `base64.StdEncoding.DecodeString`: carriage returns and line feeds
are skipped, the rest is decoded group by group. -/
def base64Decode (s : Str) : Option (List Nat) :=
  base64DecodeGroups (s.filter fun c => c != '\r' && c != '\n')

/-- Model of `basicAuth` of `net/http`: base64 of `username:password`. -/
def basicAuth (username password : Str) : Str :=
  base64Encode (utf8Encode (username ++ ":".toList ++ password))

/-- ASCII lower case of a character. -/
def asciiLower (c : Char) : Char :=
  if 'A' ≤ c ∧ c ≤ 'Z' then Char.ofNat (c.toNat + 32) else c

/-- Model of `strings.Cut(s, ":")` on the bytes of a string: the bytes before the
first colon and the bytes after it; `none` when there is no colon. -/
def cutAtColon (bytes : List Nat) : Option (List Nat × List Nat) :=
  if 58 ∈ bytes then
    some (bytes.takeWhile fun b => b != 58, (bytes.dropWhile fun b => b != 58).drop 1)
  else none

/-- Model of `parseBasicAuth` of `net/http`, the way a server reads an
`Authorization` header: after the prefix `Basic ` (in any case) the rest is
base64-decoded and cut at its first colon into the bytes of the username and of
the password. -/
def parseBasicAuth (auth : Str) : Option (List Nat × List Nat) :=
  if (auth.take 6).length = 6 ∧ (auth.take 6).map asciiLower = "basic ".toList then
    match base64Decode (auth.drop 6) with
    | none => none
    | some bytes => cutAtColon bytes
  else none

/-- Model of `Request.SetBasicAuth`: it writes the header
`Authorization: Basic base64(username:password)`. -/
def Request.SetBasicAuth (req : Request) (username password : Str) : Request :=
  req.headerSet "Authorization".toList ("Basic ".toList ++ basicAuth username password)

/-- Model of `(*Request).BasicAuth`: the credentials a server reads from the
request, as the bytes of the username and of the password; `none` when the request
has no well-formed `Authorization: Basic` header. -/
def Request.BasicAuth (req : Request) : Option (List Nat × List Nat) :=
  match GoMap.find req.Header "Authorization".toList with
  | none => none
  | some auth => if auth = [] then none else parseBasicAuth auth

/-- Sample network on which every URL parses and no server answers. -/
def openNetwork : Network :=
  { urlParses := fun _ => true, roundTrip := fun _ => .error (.transportError []) }

/-! ## `api.go`: the client -/

def productionUrl : Str := "https://api.invoiced.com".toList
def sandboxUrl : Str := "https://api.sandbox.invoiced.com".toList
def requestType : Str := "application/json".toList

/-- The `Api` struct (the `*http.Client` handle is the `Network` argument of the
methods). -/
structure Api where
  Sandbox : Bool
  Key : Str
  baseUrl : Str
  deriving DecidableEq, Repr

/-- Embedding of `New`. -/
def New (key : Str) (sandbox : Bool) : Api :=
  let url := if sandbox then sandboxUrl else productionUrl
  { Sandbox := sandbox, Key := key, baseUrl := url }

/-- Outcome of one of the five request methods: the receiver after the call, the
request handed to `client.Do` (when one was built) and what the method returns. -/
structure Sent where
  api : Api
  request : Option Request
  result : Except GoError Response

/-- Embedding of `(*Api).get`. -/
def Api.get (c : Api) (net : Network) (endpoint : Str) : Sent :=
  let url := c.baseUrl ++ endpoint
  match httpNewRequest net "GET".toList url none with
  | .error err => { api := c, request := none, result := .error err }
  | .ok req =>
    let req := req.SetBasicAuth c.Key []
    { api := c, request := some req, result := net.roundTrip req }

/-- Embedding of `(*Api).post`. -/
def Api.post (c : Api) (net : Network) (endpoint : Str) (body : Option Reader) : Sent :=
  let url := c.baseUrl ++ endpoint
  match httpNewRequest net "POST".toList url body with
  | .error err => { api := c, request := none, result := .error err }
  | .ok req =>
    let req := req.SetBasicAuth c.Key []
    let req := req.headerSet "Content-Type".toList requestType
    { api := c, request := some req, result := net.roundTrip req }

/-- Embedding of `(*Api).postWithFormData`. -/
def Api.postWithFormData (c : Api) (net : Network) (endpoint : Str) (body : Option Reader)
    (formContentType : Str) : Sent :=
  let url := c.baseUrl ++ endpoint
  match httpNewRequest net "POST".toList url body with
  | .error err => { api := c, request := none, result := .error err }
  | .ok req =>
    let req := req.SetBasicAuth c.Key []
    let req := req.headerSet "Content-Type".toList formContentType
    { api := c, request := some req, result := net.roundTrip req }

/-- Embedding of `(*Api).patch`. -/
def Api.patch (c : Api) (net : Network) (endpoint : Str) (body : Option Reader) : Sent :=
  let url := c.baseUrl ++ endpoint
  match httpNewRequest net "PATCH".toList url body with
  | .error err => { api := c, request := none, result := .error err }
  | .ok req =>
    let req := req.SetBasicAuth c.Key []
    let req := req.headerSet "Content-Type".toList requestType
    { api := c, request := some req, result := net.roundTrip req }

/-- Embedding of `(*Api).deleteRequest`. -/
def Api.deleteRequest (c : Api) (net : Network) (endpoint : Str) : Sent :=
  let url := c.baseUrl ++ endpoint
  match httpNewRequest net "DELETE".toList url none with
  | .error err => { api := c, request := none, result := .error err }
  | .ok req =>
    let req := req.SetBasicAuth c.Key []
    let req := req.headerSet "Content-Type".toList requestType
    { api := c, request := some req, result := net.roundTrip req }

/-- The base URL `New` selects for a sandbox flag, spelled out. -/
def baseUrlFor (sandbox : Bool) : Str :=
  if sandbox then "https://api.sandbox.invoiced.com".toList else "https://api.invoiced.com".toList

/-- The five request methods, as data. -/
inductive Verb where
  | get
  | post (body : Option Reader)
  | postWithFormData (body : Option Reader) (formContentType : Str)
  | patch (body : Option Reader)
  | deleteRequest

/-- Dispatch of a `Verb` to the method of that name. -/
def Api.send (c : Api) (net : Network) (endpoint : Str) : Verb → Sent
  | .get => c.get net endpoint
  | .post body => c.post net endpoint body
  | .postWithFormData body ct => c.postWithFormData net endpoint body ct
  | .patch body => c.patch net endpoint body
  | .deleteRequest => c.deleteRequest net endpoint

/-! ## `encoding/json`, as far as decoding an error body needs it -/

/-- JSON values as `encoding/json` scans them (the text of a number is not kept). -/
inductive Json where
  | null
  | bool (b : Bool)
  | number
  | string (s : Str)
  | array (items : List Json)
  | object (members : List (Str × Json))

/-- JSON insignificant white space: space, tab, carriage return, line feed. -/
def jsonSkipSpace : Str → Str
  | c :: cs => if c = ' ' ∨ c = '\t' ∨ c = '\r' ∨ c = '\n' then jsonSkipSpace cs else c :: cs
  | [] => []

/-- Value of a hexadecimal digit. -/
def hexVal (c : Char) : Option Nat :=
  if '0' ≤ c ∧ c ≤ '9' then some (c.toNat - '0'.toNat)
  else if 'a' ≤ c ∧ c ≤ 'f' then some (c.toNat - 'a'.toNat + 10)
  else if 'A' ≤ c ∧ c ≤ 'F' then some (c.toNat - 'A'.toNat + 10)
  else none

/-- Model of `getu4`: the code unit of a leading `\uXXXX`. -/
def getu4 : Str → Option Nat
  | '\\' :: 'u' :: a :: b :: c :: d :: _ =>
    match hexVal a, hexVal b, hexVal c, hexVal d with
    | some a, some b, some c, some d => some (((a * 16 + b) * 16 + c) * 16 + d)
    | _, _, _, _ => none
  | _ => none

/-- Scans a string literal after its opening quote and unquotes it: control
characters are rejected, escapes are decoded, a surrogate pair is combined and a
lone surrogate becomes U+FFFD.  Returns the text and what follows the closing
quote. -/
def jsonStringBody : Nat → Str → Str → Option (Str × Str)
  | 0, _, _ => none
  | _ + 1, [], _ => none
  | fuel + 1, c :: cs, acc =>
    if c = '"' then some (acc.reverse, cs)
    else if c = '\\' then
      match cs with
      | '"' :: r => jsonStringBody fuel r ('"' :: acc)
      | '\\' :: r => jsonStringBody fuel r ('\\' :: acc)
      | '/' :: r => jsonStringBody fuel r ('/' :: acc)
      | 'b' :: r => jsonStringBody fuel r (Char.ofNat 8 :: acc)
      | 'f' :: r => jsonStringBody fuel r (Char.ofNat 12 :: acc)
      | 'n' :: r => jsonStringBody fuel r ('\n' :: acc)
      | 'r' :: r => jsonStringBody fuel r ('\r' :: acc)
      | 't' :: r => jsonStringBody fuel r ('\t' :: acc)
      | 'u' :: r =>
        match getu4 (c :: cs) with
        | none => none
        | some rr =>
          if 0xD800 ≤ rr ∧ rr < 0xE000 then
            match getu4 (r.drop 4) with
            | some rr1 =>
              if rr < 0xDC00 ∧ 0xDC00 ≤ rr1 ∧ rr1 < 0xE000 then
                jsonStringBody fuel (r.drop 10)
                  (Char.ofNat ((rr - 0xD800) * 1024 + (rr1 - 0xDC00) + 0x10000) :: acc)
              else jsonStringBody fuel (r.drop 4) (Char.ofNat 0xFFFD :: acc)
            | none => jsonStringBody fuel (r.drop 4) (Char.ofNat 0xFFFD :: acc)
          else jsonStringBody fuel (r.drop 4) (Char.ofNat rr :: acc)
      | _ => none
    else if c.toNat < 0x20 then none
    else jsonStringBody fuel cs (c :: acc)

/-- Drops a run of decimal digits. -/
def jsonDropDigits : Str → Str
  | c :: cs => if '0' ≤ c ∧ c ≤ '9' then jsonDropDigits cs else c :: cs
  | [] => []

/-- Exponent part of a number, if any; returns what follows the number. -/
def jsonExponent : Str → Option Str
  | 'e' :: '+' :: d :: r | 'e' :: '-' :: d :: r | 'E' :: '+' :: d :: r | 'E' :: '-' :: d :: r =>
    if '0' ≤ d ∧ d ≤ '9' then some (jsonDropDigits r) else none
  | 'e' :: d :: r | 'E' :: d :: r =>
    if '0' ≤ d ∧ d ≤ '9' then some (jsonDropDigits r) else none
  | 'e' :: [] | 'E' :: [] => none
  | s => some s

/-- Fraction and exponent parts of a number, if any. -/
def jsonFraction : Str → Option Str
  | '.' :: d :: r => if '0' ≤ d ∧ d ≤ '9' then jsonExponent (jsonDropDigits r) else none
  | '.' :: [] => none
  | s => jsonExponent s

/-- Scans a number (`-`? then `0` or a digit run without leading zero, then an
optional fraction and exponent); returns what follows it. -/
def jsonNumber : Str → Option Str
  | '-' :: '0' :: r | '0' :: r => jsonFraction r
  | '-' :: c :: r => if '1' ≤ c ∧ c ≤ '9' then jsonFraction (jsonDropDigits r) else none
  | c :: r => if '1' ≤ c ∧ c ≤ '9' then jsonFraction (jsonDropDigits r) else none
  | [] => none

/-- What the scanner is in the middle of. -/
inductive JsonMode where
  | value
  | elements (acc : List Json)
  | members (acc : List (Str × Json))

/-- Recursive-descent scan of one JSON value (or of the rest of an array or
object); returns the value and the text that follows it.  The fuel bounds the
number of nested calls. -/
def jsonScan : Nat → JsonMode → Str → Option (Json × Str)
  | 0, _, _ => none
  | fuel + 1, .value, s =>
    match jsonSkipSpace s with
    | 'n' :: 'u' :: 'l' :: 'l' :: r => some (.null, r)
    | 't' :: 'r' :: 'u' :: 'e' :: r => some (.bool true, r)
    | 'f' :: 'a' :: 'l' :: 's' :: 'e' :: r => some (.bool false, r)
    | '"' :: r =>
      match jsonStringBody (r.length + 1) r [] with
      | some (text, r') => some (.string text, r')
      | none => none
    | '[' :: r =>
      match jsonSkipSpace r with
      | ']' :: r' => some (.array [], r')
      | _ => jsonScan fuel (.elements []) r
    | '{' :: r =>
      match jsonSkipSpace r with
      | '}' :: r' => some (.object [], r')
      | _ => jsonScan fuel (.members []) r
    | c :: r =>
      match jsonNumber (c :: r) with
      | some r' => some (.number, r')
      | none => none
    | [] => none
  | fuel + 1, .elements acc, s =>
    match jsonScan fuel .value s with
    | none => none
    | some (v, r) =>
      match jsonSkipSpace r with
      | ',' :: r' => jsonScan fuel (.elements (acc ++ [v])) r'
      | ']' :: r' => some (.array (acc ++ [v]), r')
      | _ => none
  | fuel + 1, .members acc, s =>
    match jsonSkipSpace s with
    | '"' :: r =>
      match jsonStringBody (r.length + 1) r [] with
      | none => none
      | some (key, r1) =>
        match jsonSkipSpace r1 with
        | ':' :: r2 =>
          match jsonScan fuel .value r2 with
          | none => none
          | some (v, r3) =>
            match jsonSkipSpace r3 with
            | ',' :: r4 => jsonScan fuel (.members (acc ++ [(key, v)])) r4
            | '}' :: r4 => some (.object (acc ++ [(key, v)]), r4)
            | _ => none
        | _ => none
    | _ => none

/-- The JSON value a whole text denotes, if the text is valid JSON (model of the
decoder's `checkValid` pass followed by its scan). -/
def jsonParse (data : Str) : Option Json :=
  match jsonScan (2 * data.length + 2) .value data with
  | some (v, r) => if jsonSkipSpace r = [] then some v else none
  | none => none


/-- Case folding of field names: ASCII letters to upper case, and the two letters
outside ASCII whose simple case folding meets ASCII. -/
def jsonFoldChar (c : Char) : Char :=
  if 'a' ≤ c ∧ c ≤ 'z' then Char.ofNat (c.toNat - 32)
  else if c = Char.ofNat 0x17F then 'S'
  else if c = Char.ofNat 0x212A then 'K'
  else c

/-- A member key selects a struct field when it equals the field name exactly or
up to case folding. -/
def jsonKeyMatches (key name : Str) : Bool :=
  key = name ∨ key.map jsonFoldChar = name.map jsonFoldChar

/-- Stores one object member into the struct: a string goes into the field its key
selects, `null` and unknown keys change nothing, and any other value for a known
field is a type error, remembered if it is the first one. -/
def jsonStoreMember (st : APIError × Option GoError) (member : Str × Json) :
    APIError × Option GoError :=
  let isType := jsonKeyMatches member.1 "type".toList
  let isMessage := jsonKeyMatches member.1 "message".toList
  if isType ∨ isMessage then
    match member.2 with
    | .string text =>
      if isType then ({ st.1 with Type_ := text }, st.2) else ({ st.1 with Message := text }, st.2)
    | .null => st
    | _ =>
      match st.2 with
      | none => (st.1, some (.jsonError "cannot unmarshal into Go struct field of type string".toList))
      | some _ => st
  else st

/-- Model of `json.Unmarshal(data, apiError)`: invalid JSON is a syntax error and
stores nothing; `null` stores nothing; an object stores its members; any other
value is a type error. -/
def jsonUnmarshalAPIError (data : Str) (apiError : APIError) : APIError × Option GoError :=
  match jsonParse data with
  | none => (apiError, some (.jsonError "invalid character".toList))
  | some .null => (apiError, none)
  | some (.object members) => members.foldl jsonStoreMember (apiError, none)
  | some _ => (apiError, some (.jsonError "cannot unmarshal into Go value of type APIError".toList))

/-! ## `api.go`: the error decoder -/

/-- The zero value `new(APIError)`. -/
def APIError.zero : APIError := { Type_ := [], Message := [] }

/-- The `apiError` value `checkStatusForError` builds from a body it has read
(lines 56 to 62): a zero `APIError`, filled by `json.Unmarshal`, whose type is
overwritten with the whole body when unmarshalling fails. -/
def buildAPIError (body : Str) : APIError :=
  let apiError := APIError.zero
  match jsonUnmarshalAPIError body apiError with
  | (apiError, some _) => { apiError with Type_ := body }
  | (apiError, none) => apiError

/-- Embedding of `checkStatusForError`; the reader after the call is returned next
to the error.  `GoError.apiError apiError` is `errors.New(apiError.Error())`. -/
def checkStatusForError (status : Int) (r : Reader) : Option GoError × Reader :=
  if status < 400 then (none, r)
  else
    match ioutilReadAll r with
    | (_, some err, r') => (some err, r')
    | (body, none, r') => (some (.apiError (buildAPIError body)), r')

/-! ## The `strings` and `strconv` functions the package calls -/

/-- Worker of `stringsSplit` for a non-empty separator; the first argument counts
the characters of a matched separator that are still to be skipped. -/
def stringsSplitAux (sep : Str) : Nat → Str → List Str
  | _, [] => [[]]
  | k + 1, _ :: cs => stringsSplitAux sep k cs
  | 0, c :: cs =>
    if sep.isPrefixOf (c :: cs) then [] :: stringsSplitAux sep (sep.length - 1) cs
    else
      match stringsSplitAux sep 0 cs with
      | piece :: pieces => (c :: piece) :: pieces
      | [] => [[c]]

/-- Model of `strings.Split`: the pieces between the non-overlapping occurrences of
the separator, found left to right; an empty separator splits after every
character. -/
def stringsSplit (s sep : Str) : List Str :=
  if sep = [] then s.map fun c => [c] else stringsSplitAux sep 0 s

/-- Worker of `stringsIndex`, counting the offset. -/
def stringsIndexFrom (substr : Str) : Str → Int → Int
  | [], i => if substr = [] then i else -1
  | c :: cs, i => if substr.isPrefixOf (c :: cs) then i else stringsIndexFrom substr cs (i + 1)

/-- Model of `strings.Index`: offset of the first occurrence, or -1. -/
def stringsIndex (s substr : Str) : Int := stringsIndexFrom substr s 0

/-- Worker of `stringsLastIndex`: the best offset seen so far is carried along. -/
def stringsLastIndexFrom (substr : Str) : Str → Int → Int → Int
  | [], i, best => if substr = [] then i else best
  | c :: cs, i, best =>
    stringsLastIndexFrom substr cs (i + 1) (if substr.isPrefixOf (c :: cs) then i else best)

/-- Model of `strings.LastIndex`: offset of the last occurrence, or -1. -/
def stringsLastIndex (s substr : Str) : Int := stringsLastIndexFrom substr s 0 (-1)

/-- Model of the slice expression `s[lo:hi]`: panics unless `0 ≤ lo ≤ hi ≤ len(s)`. -/
def goSlice (s : Str) (lo hi : Int) : Option Str :=
  if 0 ≤ lo ∧ lo ≤ hi ∧ hi ≤ s.length then some ((s.take hi.toNat).drop lo.toNat) else none

/-- Model of `unicode.IsSpace`. -/
def unicodeIsSpace (c : Char) : Bool :=
  let n := c.toNat
  (9 ≤ n ∧ n ≤ 13) ∨ n = 0x20 ∨ n = 0x85 ∨ n = 0xA0 ∨ n = 0x1680 ∨ (0x2000 ≤ n ∧ n ≤ 0x200A) ∨
    n = 0x2028 ∨ n = 0x2029 ∨ n = 0x202F ∨ n = 0x205F ∨ n = 0x3000

/-- Model of `strings.TrimSpace`. -/
def stringsTrimSpace (s : Str) : Str :=
  (s.dropWhile unicodeIsSpace).rdropWhile unicodeIsSpace

/-- Model of `strings.Trim`: drops leading and trailing characters of the cutset. -/
def stringsTrim (s cutset : Str) : Str :=
  (s.dropWhile fun c => decide (c ∈ cutset)).rdropWhile fun c => decide (c ∈ cutset)

/-- Model of `strings.TrimRight`: drops trailing characters of the cutset. -/
def stringsTrimRight (s cutset : Str) : Str :=
  s.rdropWhile fun c => decide (c ∈ cutset)

/-- Worker of `stringsReplaceAll` for a non-empty `old`; the first argument counts
the characters of a matched occurrence that are still to be skipped. -/
def stringsReplaceAux (old new : Str) : Nat → Str → Str
  | _, [] => []
  | k + 1, _ :: cs => stringsReplaceAux old new k cs
  | 0, c :: cs =>
    if old.isPrefixOf (c :: cs) then new ++ stringsReplaceAux old new (old.length - 1) cs
    else c :: stringsReplaceAux old new 0 cs

/-- Model of `strings.Replace(s, old, new, -1)`: every non-overlapping occurrence
of `old`, found left to right, is replaced; an empty `old` matches before every
character and at the end. -/
def stringsReplaceAll (s old new : Str) : Str :=
  if old = [] then new ++ (s.map fun c => c :: new).flatten
  else stringsReplaceAux old new 0 s

/-- Loop of `strconv.ParseUint(s, 10, 64)` over the digits, with the accumulator a
`uint64`. -/
def strconvParseUintLoop (s0 : Str) : Str → Nat → Nat × Option GoError
  | [], n => (n, none)
  | c :: cs, n =>
    if '0' ≤ c ∧ c ≤ '9' then
      let d := c.toNat - '0'.toNat
      if n ≥ (2 ^ 64 - 1) / 10 + 1 then (2 ^ 64 - 1, some (.numRange s0))
      else
        let n := (n * 10) % 2 ^ 64
        let n1 := (n + d) % 2 ^ 64
        if n1 < n ∨ n1 > 2 ^ 64 - 1 then (2 ^ 64 - 1, some (.numRange s0))
        else strconvParseUintLoop s0 cs n1
    else (0, some (.numSyntax s0))

/-- Model of `strconv.ParseUint(s, 10, 64)`: any character that is not a decimal
digit is a syntax error, a value beyond `uint64` a range error. -/
def strconvParseUint (s : Str) : Nat × Option GoError :=
  if s = [] then (0, some (.numSyntax s)) else strconvParseUintLoop s s 0

/-- Conversion `int64(un)` of a `uint64`. -/
def toInt64 (un : Nat) : Int :=
  if un % 2 ^ 64 < 2 ^ 63 then (un % 2 ^ 64 : Nat) else (un % 2 ^ 64 : Nat) - 2 ^ 64

/-- Negation of an `int64`, wrapping at the minimum. -/
def negInt64 (n : Int) : Int :=
  if n = -(2 ^ 63) then n else -n

/-- Model of `strconv.ParseInt(s, 10, 64)`. -/
def strconvParseInt (s : Str) : Int × Option GoError :=
  match s with
  | [] => (0, some (.numSyntax s))
  | c :: rest =>
    let neg := decide (c = '-')
    let digits := if c = '+' ∨ c = '-' then rest else s
    match strconvParseUint digits with
    | (_, some (.numSyntax _)) => (0, some (.numSyntax s))
    | (un, _) =>
      if neg = false ∧ un ≥ 2 ^ 63 then (2 ^ 63 - 1, some (.numRange s))
      else if neg = true ∧ un > 2 ^ 63 then (-(2 ^ 63), some (.numRange s))
      else (if neg then negInt64 (toInt64 un) else toInt64 un, none)

/-! ## `api.go`: link header -/

/-- Embedding of `parseRelValue`; `none` is the slice-bounds panic. -/
def parseRelValue (s : Str) : Option Str :=
  let first := stringsIndex s "\"".toList
  let last := stringsLastIndex s "\"".toList
  match goSlice s (first + 1) last with
  | none => none
  | some trimmed => some (stringsTrimSpace trimmed)

/-- Embedding of `parseLinkUrl`. -/
def parseLinkUrl (s : Str) : Str :=
  let trimmed := stringsTrimSpace s
  let trimmed := stringsTrim trimmed "<".toList
  let trimmed := stringsTrim trimmed ">".toList
  stringsTrimSpace trimmed

/-- Body of the `for` loop of `parseLinkHeader` over the segments that are left;
`none` is an index-out-of-range or slice-bounds panic. -/
def parseLinkSegments : List Str → GoMap Str → Option (GoMap Str)
  | [], urlAndLinkMap => some urlAndLinkMap
  | rawURLLinkRelation :: rest, urlAndLinkMap =>
    let parsedRawURLAndRelation := stringsSplit rawURLLinkRelation ";".toList
    match parsedRawURLAndRelation[0]? with
    | none => none
    | some part0 =>
      let url := parseLinkUrl part0
      match parsedRawURLAndRelation[1]? with
      | none => none
      | some part1 =>
        match parseRelValue part1 with
        | none => none
        | some relation => parseLinkSegments rest (GoMap.set urlAndLinkMap relation url)

/-- Embedding of `parseLinkHeader`; `none` is a panic. -/
def parseLinkHeader (s : Str) : Option (GoMap Str) :=
  parseLinkSegments (stringsSplit s ",".toList) []

/-! ## `api.go`: decoding and the generic operations -/

/-- Embedding of `pushDataIntoStruct`.  The destination is any caller structure;
`unmarshal` is `json.Unmarshal` into it, which returns the destination as it left
it next to its error. -/
def pushDataIntoStruct {δ : Type} (unmarshal : Str → δ → δ × Option GoError)
    (endpointData : δ) (respBody : Reader) : Option GoError × δ × Reader :=
  match ioutilReadAll respBody with
  | (_, some err, r) => (some err, endpointData, r)
  | (body, none, r) =>
    match unmarshal body endpointData with
    | (endpointData, some err) => (some err, endpointData, r)
    | (endpointData, none) => (none, endpointData, r)

/-- What `Get` and `retrieveDataFromAPI` leave behind when they return: the
receiver, the two results, and the destination structure. -/
structure Retrieved (δ : Type) where
  api : Api
  cursor : Str
  err : Option GoError
  data : δ

/-- Embedding of `(*Api).retrieveDataFromAPI`; `none` is a panic of
`parseLinkHeader`.  The deferred `resp.Body.Close()` has no effect on what is
returned and is left out. -/
def Api.retrieveDataFromAPI {δ : Type} (c : Api) (net : Network)
    (unmarshal : Str → δ → δ × Option GoError) (endpoint : Str) (endpointData : δ) :
    Option (Retrieved δ) :=
  let sent := c.get net endpoint
  let c := sent.api
  match sent.result with
  | .error err => some { api := c, cursor := [], err := some err, data := endpointData }
  | .ok resp =>
    let link := resp.headerGet "Link".toList
    let nextURL : Option Str :=
      if link ≠ [] then
        match parseLinkHeader link with
        | none => none
        | some nextMap =>
          if GoMap.get nextMap "self".toList ≠ GoMap.get nextMap "next".toList then
            some (GoMap.get nextMap "next".toList)
          else some []
      else some []
    match nextURL with
    | none => none
    | some nextURL =>
      match checkStatusForError resp.StatusCode resp.Body with
      | (some apiError, _) =>
        some { api := c, cursor := [], err := some apiError, data := endpointData }
      | (none, body) =>
        match pushDataIntoStruct unmarshal endpointData body with
        | (some err, endpointData, _) =>
          some { api := c, cursor := [], err := some err, data := endpointData }
        | (none, endpointData, _) =>
          some { api := c, cursor := stringsReplaceAll nextURL c.baseUrl [], err := none,
                 data := endpointData }

/-- Embedding of `(*Api).Get`, whose body is that of `retrieveDataFromAPI`. -/
def Api.Get {δ : Type} (c : Api) (net : Network)
    (unmarshal : Str → δ → δ × Option GoError) (endpoint : Str) (endpointData : δ) :
    Option (Retrieved δ) :=
  let sent := c.get net endpoint
  let c := sent.api
  match sent.result with
  | .error err => some { api := c, cursor := [], err := some err, data := endpointData }
  | .ok resp =>
    let link := resp.headerGet "Link".toList
    let nextURL : Option Str :=
      if link ≠ [] then
        match parseLinkHeader link with
        | none => none
        | some nextMap =>
          if GoMap.get nextMap "self".toList ≠ GoMap.get nextMap "next".toList then
            some (GoMap.get nextMap "next".toList)
          else some []
      else some []
    match nextURL with
    | none => none
    | some nextURL =>
      match checkStatusForError resp.StatusCode resp.Body with
      | (some apiError, _) =>
        some { api := c, cursor := [], err := some apiError, data := endpointData }
      | (none, body) =>
        match pushDataIntoStruct unmarshal endpointData body with
        | (some err, endpointData, _) =>
          some { api := c, cursor := [], err := some err, data := endpointData }
        | (none, endpointData, _) =>
          some { api := c, cursor := stringsReplaceAll nextURL c.baseUrl [], err := none,
                 data := endpointData }

/-- Embedding of `(*Api).Count`. -/
def Api.Count (c : Api) (net : Network) (endpoint : Str) : Int × Option GoError :=
  match (c.get net endpoint).result with
  | .error err => (-1, some err)
  | .ok resp =>
    match checkStatusForError resp.StatusCode resp.Body with
    | (some err, _) => (-1, some err)
    | (none, _) =>
      let s := resp.headerGet "X-Total-Count".toList
      match strconvParseInt s with
      | (_, some err) => (-1, some err)
      | (i, none) => (i, none)

/-- Embedding of `(*Api).count`. -/
def Api.count (c : Api) (net : Network) (endpoint : Str) : Int × Option GoError :=
  match (c.get net endpoint).result with
  | .error err => (-1, some err)
  | .ok resp =>
    match checkStatusForError resp.StatusCode resp.Body with
    | (some err, _) => (0, some err)
    | (none, _) =>
      let s := resp.headerGet "X-Total-Count".toList
      match strconvParseInt s with
      | (_, some err) => (-1, some err)
      | (i, none) => (i, none)

/-! ## `sort.go` -/

/-- The type `SortOrder`, an `int`. -/
structure SortOrder where
  val : Int
  deriving DecidableEq, Repr

def ASC : SortOrder := ⟨0⟩
def DESC : SortOrder := ⟨1⟩

/-- Embedding of `SortOrder.String`. -/
def SortOrder.String (s : SortOrder) : Str :=
  if s = ASC then "ASC".toList
  else if s = DESC then "DESC".toList
  else []

/-- The `Sort` struct (`Sort` itself is reserved in Lean). -/
structure Sort_ where
  orders : GoMap SortOrder
  deriving DecidableEq, Repr

/-- Embedding of `NewSort`. -/
def NewSort : Sort_ := { orders := [] }

/-- Embedding of `(*Sort).Set`. -/
def Sort_.Set (s : Sort_) (column : Str) (order : SortOrder) : Sort_ :=
  { s with orders := GoMap.set s.orders column order }

/-- Map read `s.orders[column]`: the zero `SortOrder` when the column is absent. -/
def Sort_.order (s : Sort_) (column : Str) : SortOrder :=
  (GoMap.find s.orders column).getD ⟨0⟩

/-- Model of `sort.Strings`: the increasing rearrangement under Go's string
comparison, the lexicographic order of the text. -/
def sortStrings (xs : List Str) : List Str :=
  xs.insertionSort (· ≤ ·)

/-- Upper-case hexadecimal digit of a nibble. -/
def upperHex (n : Nat) : Char :=
  "0123456789ABCDEF".toList.getD n '0'

/-- Characters `url.QueryEscape` leaves as they are: ASCII letters, digits and
`-`, `_`, `.`, `~`. -/
def urlUnreserved (c : Char) : Bool :=
  ('a' ≤ c ∧ c ≤ 'z') ∨ ('A' ≤ c ∧ c ≤ 'Z') ∨ ('0' ≤ c ∧ c ≤ '9') ∨
    c = '-' ∨ c = '_' ∨ c = '.' ∨ c = '~'

/-- Model of `url.QueryEscape`: a space becomes `+`, any other byte that is not
unreserved becomes `%XX`. -/
def urlQueryEscape (s : Str) : Str :=
  (s.map fun c =>
    if c = ' ' then ['+']
    else if urlUnreserved c then [c]
    else ((utf8Bytes c).map fun b => ['%', upperHex (b / 16), upperHex (b % 16)]).flatten).flatten

/-- The type `url.Values`. -/
abbrev UrlValues := GoMap (List Str)

/-- Model of `url.Values.Set`. -/
def UrlValues.Set (v : UrlValues) (key value : Str) : UrlValues :=
  GoMap.set v key [value]

/-- Model of `url.Values.Encode`: `key=value` pairs, escaped, in increasing order
of key, joined by `&`. -/
def UrlValues.Encode (v : UrlValues) : Str :=
  (sortStrings (GoMap.keys v)).foldl
    (fun buf k =>
      ((GoMap.find v k).getD []).foldl
        (fun buf value =>
          (if buf ≠ [] then buf ++ ['&'] else buf) ++ urlQueryEscape k ++ ['='] ++
            urlQueryEscape value)
        buf)
    []

/-- The keys of `s.orders` collected by the `range` loop and sorted (lines 46 to
50). -/
def Sort_.orderedKeys (s : Sort_) : List Str :=
  sortStrings (GoMap.keys s.orders)

/-- The value of `orderString` after the second loop and the `TrimRight` (lines 52
to 55): what is stored under the `sort` key. -/
def Sort_.orderString (s : Sort_) : Str :=
  let orderString := s.orderedKeys.foldl
    (fun orderString column =>
      orderString ++ (column ++ " ".toList ++ (s.order column).String ++ ",".toList))
    []
  stringsTrimRight orderString ",".toList

/-- Embedding of `(*Sort).String`. -/
def Sort_.String (s : Sort_) : Str :=
  let uValues : UrlValues := []
  let orderString := s.orderString
  if orderString = [] then []
  else (uValues.Set "sort".toList orderString).Encode

/-- A `Sort` built from `NewSort` by a sequence of `Set` calls. -/
def Sort_.build (calls : List (Str × SortOrder)) : Sort_ :=
  calls.foldl (fun s call => s.Set call.1 call.2) NewSort

/-- Text pieces joined by a separator placed between consecutive pieces only. -/
def joinWith (sep : Str) : List Str → Str
  | [] => []
  | [x] => x
  | x :: y :: rest => x ++ sep ++ joinWith sep (y :: rest)

/-- The text `column direction` of one column. -/
def sortEntry (s : Sort_) (column : Str) : Str :=
  column ++ " ".toList ++ (s.order column).String

/-- A text that ends in a character other than the comma. -/
def EndsOffComma (s : Str) : Prop := ∃ pre x, s = pre ++ [x] ∧ x ≠ ','

/-! ## `subscriptions.go`, `transactions.go`: `ListAll` -/

/-- An element of `Subscriptions` or `Transactions` (a non-nil pointer): the
embedded `*Connection` (nil until it is set) and the decoded endpoint object. -/
structure Item (α : Type) where
  Connection : Option Api
  object : α

/-- How a run of a loop ends: it returns, it panics, or the fuel given to the
model runs out first. -/
inductive Run (ρ : Type) where
  | returned (result : ρ)
  | panicked
  | outOfFuel

/-- What `ListAll` returns, with the number of calls to `retrieveDataFromAPI` it
made. -/
structure Listed (α : Type) where
  items : List (Item α)
  err : Option GoError
  calls : Nat

/-- The `NEXT:` loop of `ListAll` and what follows it.  `endPoint` is the current
endpoint, `acc` the slice accumulated so far, `calls` counts the requests made. -/
def listAllLoop {α : Type} (net : Network)
    (unmarshal : Str → List (Item α) → List (Item α) × Option GoError) :
    Nat → Api → Str → List (Item α) → Nat → Run (Listed α)
  | 0, _, _, _, _ => .outOfFuel
  | fuel + 1, c, endPoint, acc, calls =>
    match c.retrieveDataFromAPI net unmarshal endPoint [] with
    | none => .panicked
    | some r =>
      match r.err with
      | some apiErr => .returned { items := [], err := some apiErr, calls := calls + 1 }
      | none =>
        let acc := acc ++ r.data
        if r.cursor ≠ [] then listAllLoop net unmarshal fuel r.api r.cursor acc (calls + 1)
        else
          .returned { items := acc.map fun item => { item with Connection := some r.api },
                      err := none, calls := calls + 1 }

/-- Embedding of `(*Subscription).ListAll` and `(*Transaction).ListAll`, which
differ in the element type only.  `endPoint` is the endpoint the first two lines
compute from the filter and the sort. -/
def ListAll {α : Type} (c : Api) (net : Network)
    (unmarshal : Str → List (Item α) → List (Item α) × Option GoError)
    (endPoint : Str) (fuel : Nat) : Run (Listed α) :=
  listAllLoop net unmarshal fuel c endPoint [] 0

/-! ## Definitions the statements use -/

/-- A finite chain of successful pages as `retrieveDataFromAPI` sees the server:
from `endPoint`, each page returns its items and a non-empty cursor to the next
page, and the last page returns its items and the empty cursor. -/
inductive PageChain {α : Type} (c : Api) (net : Network)
    (unmarshal : Str → List (Item α) → List (Item α) × Option GoError) :
    Str → List (List (Item α)) → Prop where
  | last (endPoint : Str) (items : List (Item α)) (r : Retrieved (List (Item α)))
      (hcall : c.retrieveDataFromAPI net unmarshal endPoint [] = some r)
      (herr : r.err = none) (hdata : r.data = items) (hcursor : r.cursor = []) :
      PageChain c net unmarshal endPoint [items]
  | next (endPoint : Str) (items : List (Item α)) (rest : List (List (Item α)))
      (r : Retrieved (List (Item α)))
      (hcall : c.retrieveDataFromAPI net unmarshal endPoint [] = some r)
      (herr : r.err = none) (hdata : r.data = items) (hcursor : r.cursor ≠ [])
      (hrest : PageChain c net unmarshal r.cursor rest) :
      PageChain c net unmarshal endPoint (items :: rest)

/-- Appending one decimal digit to a number. -/
def hornerStep (v : Nat) (c : Char) : Nat := v * 10 + (c.toNat - '0'.toNat)

/-- Value of a non-empty run of decimal digits; `none` for anything else. -/
def decimalValue (s : Str) : Option Nat :=
  if s ≠ [] ∧ s.all (fun c => decide ('0' ≤ c ∧ c ≤ '9')) then some (s.foldl hornerStep 0)
  else none

/-- The integer a base-10 text denotes: an optional sign `+` or `-` followed by a
non-empty run of decimal digits (so `42`, `+42` and `042` all denote 42). -/
def base10Value : Str → Option Int
  | '+' :: digits => (decimalValue digits).map fun v => (v : Int)
  | '-' :: digits => (decimalValue digits).map fun v => -(v : Int)
  | digits => (decimalValue digits).map fun v => (v : Int)

/-- The text is a base-10 text of the 64-bit integer `n`: it denotes `n`, and `n`
lies in the range of `int64`. -/
def IsBase10TextOf (s : Str) (n : Int) : Prop :=
  base10Value s = some n ∧ -(2 ^ 63) ≤ n ∧ n < 2 ^ 63

/-- One entry of a rendered Link header: `<url>; rel="relation"`. -/
def renderLinkEntry (entry : Str × Str) : Str :=
  "<".toList ++ entry.2 ++ ">; rel=\"".toList ++ entry.1 ++ "\"".toList

/-- The Link header of a relation-to-URL mapping: its entries joined by `, `. -/
def renderLinkHeader (m : GoMap Str) : Str :=
  joinWith ", ".toList (m.map renderLinkEntry)

/-- A URL that needs no quoting in a Link header: none of its characters is a
delimiter of the header syntax (`<`, `>`, `,`, `;`, `"`) or white space. -/
def unquotedSafe (url : Str) : Bool :=
  url.all fun c =>
    c ≠ '<' ∧ c ≠ '>' ∧ c ≠ ',' ∧ c ≠ ';' ∧ c ≠ '"' ∧ unicodeIsSpace c = false

/-- A relation name the header syntax can carry: it has no `,` or `;` and neither
starts nor ends with white space. -/
def relationSafe (relation : Str) : Bool :=
  (relation.all fun c => c ≠ ',' ∧ c ≠ ';') &&
    (relation.head?.map unicodeIsSpace != some true) &&
    (relation.getLast?.map unicodeIsSpace != some true)

/-- Sample `json.Unmarshal` into a slice whose elements carry a string: a JSON
array of strings replaces the slice, `null` empties it, anything else is an error
that leaves the slice alone. -/
def unmarshalNames (data : Str) (dst : List (Item Str)) : List (Item Str) × Option GoError :=
  match jsonParse data with
  | some (.array items) =>
    if items.all (fun v => match v with | .string _ => true | _ => false) then
      (items.filterMap fun v =>
        match v with
        | .string s => some { Connection := none, object := s }
        | _ => none, none)
    else (dst, some (.jsonError "cannot unmarshal into Go value of type string".toList))
  | some .null => ([], none)
  | _ => (dst, some (.jsonError "invalid".toList))

/-- Sample network: every URL parses, and each listed URL answers with its
response. -/
def tableNetwork (table : List (Str × Response)) : Network :=
  { urlParses := fun _ => true
    roundTrip := fun req =>
      match GoMap.find table req.URL with
      | some resp => .ok resp
      | none => .error (.transportError req.URL) }

/-- Sample server: a subscription listing of three pages of two names each; the
Link header of the last page names the same URL as `self` and `next`. -/
def threePages : Network :=
  tableNetwork
    [("https://api.invoiced.com/subscriptions".toList,
      { StatusCode := 200,
        Header := [("Link".toList,
          "<https://api.invoiced.com/subscriptions?page=1>; rel=\"self\", <https://api.invoiced.com/subscriptions?page=2>; rel=\"next\"".toList)],
        Body := Reader.ofBody "[\"s1\", \"s2\"]".toList }),
     ("https://api.invoiced.com/subscriptions?page=2".toList,
      { StatusCode := 200,
        Header := [("Link".toList,
          "<https://api.invoiced.com/subscriptions?page=2>; rel=\"self\", <https://api.invoiced.com/subscriptions?page=3>; rel=\"next\"".toList)],
        Body := Reader.ofBody "[\"s3\", \"s4\"]".toList }),
     ("https://api.invoiced.com/subscriptions?page=3".toList,
      { StatusCode := 200,
        Header := [("Link".toList,
          "<https://api.invoiced.com/subscriptions?page=3>; rel=\"self\", <https://api.invoiced.com/subscriptions?page=3>; rel=\"next\"".toList)],
        Body := Reader.ofBody "[\"s5\", \"s6\"]".toList })]

/-- An element as the sample decoder leaves it: no connection yet. -/
def named (name : String) : Item Str := { Connection := none, object := name.toList }

/-- An object member list gives the name a string value. -/
def hasStringMember (members : List (Str × Json)) (name : Str) : Bool :=
  members.any fun member =>
    match member with
    | (key, .string _) => key = name
    | _ => false

/-- The spec's "valid JSON matching the structured error shape {type, message}":
the body is a JSON object that gives both `type` and `message` a string (other
members are permitted). -/
def matchesErrorShape (body : Str) : Bool :=
  match jsonParse body with
  | some (.object members) =>
    hasStringMember members "type".toList && hasStringMember members "message".toList
  | _ => false

/-- Number of double-quote characters in a text. -/
def quoteCount (s : Str) : Nat := s.count '"'

/-- The piece after the first separator of a segment: the text between the first
separator and the next one (or the end of the segment). -/
def pieceAfterFirst (sep : Char) (segment : Str) : Str :=
  ((segment.dropWhile fun c => c != sep).drop 1).takeWhile fun c => c != sep

/-- A segment of a Link header on which the parser fails: it has no `;`, or the
piece after its first `;` has fewer than two double-quote characters. -/
def malformedSegment (segment : Str) : Prop :=
  ';' ∉ segment ∨ quoteCount (pieceAfterFirst ';' segment) < 2

/-- What one pass of the loop of `parseLinkHeader` stores for a segment: the
relation and the URL; `none` when the pass panics. -/
def segmentEntry (rawURLLinkRelation : Str) : Option (Str × Str) :=
  let parsedRawURLAndRelation := stringsSplit rawURLLinkRelation ";".toList
  match parsedRawURLAndRelation[0]? with
  | none => none
  | some part0 =>
    match parsedRawURLAndRelation[1]? with
    | none => none
    | some part1 =>
      match parseRelValue part1 with
      | none => none
      | some relation => some (relation, parseLinkUrl part0)

/-- The URL the last entry with the given relation carries, if there is one. -/
def lastUrlFor (entries : List (Str × Str)) (relation : Str) : Option Str :=
  (entries.reverse.find? fun entry => decide (entry.1 = relation)).map Prod.snd

/-! ## Theorems -/

/-- C2: `checkStatusForError` returns a non-nil error exactly when the status is at
least 400, whatever the body (and whatever the state of its reader); in
particular status 200 yields nil. -/
theorem checkStatusForError_error_iff (status : Int) (r : Reader) :
    ((checkStatusForError status r).1 ≠ none ↔ status ≥ 400) ∧
    (checkStatusForError 200 r).1 = none := by
  refine ⟨?_, by simp [checkStatusForError]⟩
  unfold checkStatusForError
  by_cases h : status < 400
  · simp [h]
  · simp only [h, if_false, ioutilReadAll]
    cases r.failure <;> simp <;> omega

/-- C3, as stated, fails: at status 500 the body `null` is valid JSON that is not
an object of the error shape, yet unmarshalling it succeeds and stores nothing, so
the error built has the empty type, not the body text. -/
theorem null_body_type_not_raw_body :
    (500 : Int) ≥ 400 ∧ matchesErrorShape "null".toList = false ∧
    (checkStatusForError 500 (Reader.ofBody "null".toList)).1 =
      some (.apiError { Type_ := [], Message := [] }) ∧
    (buildAPIError "null".toList).Type_ ≠ "null".toList := by
  decide

/-- C3, amended: for every status of at least 400 and every body on which
`json.Unmarshal` into the error structure reports an error (in particular every
body that is not valid JSON), `checkStatusForError` returns the error rendered from
an `APIError` whose type field is the entire raw body. -/
theorem unmarshal_failure_keeps_raw_body (status : Int) (body : Str)
    (hstatus : status ≥ 400)
    (hfail : jsonParse body = none ∨ (jsonUnmarshalAPIError body APIError.zero).2 ≠ none) :
    (checkStatusForError status (Reader.ofBody body)).1 = some (.apiError (buildAPIError body)) ∧
    (buildAPIError body).Type_ = body := by
  have hlt : ¬ status < 400 := by omega
  refine ⟨by simp [checkStatusForError, hlt, ioutilReadAll, Reader.ofBody], ?_⟩
  have hfail' : (jsonUnmarshalAPIError body APIError.zero).2 ≠ none := by
    rcases hfail with h | h
    · simp [jsonUnmarshalAPIError, h]
    · exact h
  rcases hres : jsonUnmarshalAPIError body APIError.zero with ⟨st, err⟩
  rw [hres] at hfail'
  cases err with
  | none => exact absurd rfl hfail'
  | some e => simp [buildAPIError, hres]

/-- Witness for C3 amended: status 500 with body `not json` gives type `not json`. -/
theorem unmarshal_failure_keeps_raw_body_witness :
    (checkStatusForError 500 (Reader.ofBody "not json".toList)).1 =
      some (.apiError (buildAPIError "not json".toList)) ∧
    (buildAPIError "not json".toList).Type_ = "not json".toList :=
  unmarshal_failure_keeps_raw_body 500 "not json".toList (by decide) (Or.inl rfl)

/-! ### Retrieval: what the request methods leave unchanged, and the cursor -/

theorem Api.get_api (c : Api) (net : Network) (endpoint : Str) :
    (c.get net endpoint).api = c := by
  simp only [Api.get]
  split <;> rfl

theorem stringsReplaceAll_nil (old : Str) : stringsReplaceAll [] old [] = [] := by
  unfold stringsReplaceAll
  split <;> simp [stringsReplaceAux]

theorem stringsReplaceAux_skip (old new : Str) (xs s : Str) :
    stringsReplaceAux old new xs.length (xs ++ s) = stringsReplaceAux old new 0 s := by
  induction xs with
  | nil => rfl
  | cons x xs ih => simpa [stringsReplaceAux] using ih

theorem stringsReplaceAux_absent (old new : Str) (s : Str) (h : ¬ old <:+: s) :
    stringsReplaceAux old new 0 s = s := by
  induction s with
  | nil => rfl
  | cons c cs ih =>
    have hpre : old.isPrefixOf (c :: cs) = false := by
      cases hp : old.isPrefixOf (c :: cs) with
      | false => rfl
      | true => exact absurd (List.isPrefixOf_iff_prefix.mp hp).isInfix h
    have htail : ¬ old <:+: cs := fun hi => h (hi.trans (List.suffix_cons c cs).isInfix)
    simp [stringsReplaceAux, hpre, ih htail]

/-- Removing every occurrence of a non-empty `old` from `old ++ p` leaves `p` when
`p` does not contain `old`. -/
theorem stringsReplaceAll_strip_prefix (old p : Str) (hne : old ≠ []) (h : ¬ old <:+: p) :
    stringsReplaceAll (old ++ p) old [] = p := by
  unfold stringsReplaceAll
  rw [if_neg hne]
  cases old with
  | nil => exact absurd rfl hne
  | cons x xs =>
    have hpre : (x :: xs).isPrefixOf (x :: (xs ++ p)) = true :=
      List.isPrefixOf_iff_prefix.mpr (by simp)
    show stringsReplaceAux (x :: xs) [] 0 (x :: (xs ++ p)) = p
    simp only [stringsReplaceAux, hpre, if_true, List.nil_append, List.length_cons,
      Nat.add_sub_cancel]
    rw [stringsReplaceAux_skip, stringsReplaceAux_absent _ _ _ h]

theorem Api.Get_eq_retrieveDataFromAPI {δ : Type} (c : Api) (net : Network)
    (unmarshal : Str → δ → δ × Option GoError) (endpoint : Str) (endpointData : δ) :
    c.Get net unmarshal endpoint endpointData =
      c.retrieveDataFromAPI net unmarshal endpoint endpointData := rfl

/-- The cursor of every value `retrieveDataFromAPI` returns after a response whose
derived next URL is empty is empty. -/
theorem retrieve_cursor_of_same {δ : Type} (c : Api) (net : Network)
    (unmarshal : Str → δ → δ × Option GoError) (endpoint : Str) (endpointData : δ)
    (resp : Response) (nextMap : GoMap Str)
    (hget : (c.get net endpoint).result = .ok resp)
    (hlink : resp.headerGet "Link".toList ≠ [])
    (hparse : parseLinkHeader (resp.headerGet "Link".toList) = some nextMap)
    (hsame : GoMap.get nextMap "self".toList = GoMap.get nextMap "next".toList) :
    ∃ r, c.retrieveDataFromAPI net unmarshal endpoint endpointData = some r ∧ r.cursor = [] := by
  simp only [Api.retrieveDataFromAPI, hget, hparse, hsame, hlink, ne_eq, not_false_eq_true,
    if_true, not_true_eq_false, if_false]
  rcases checkStatusForError resp.StatusCode resp.Body with ⟨_ | e, body⟩
  · dsimp only
    rcases pushDataIntoStruct unmarshal endpointData body with ⟨_ | e, d, r⟩
    · exact ⟨_, rfl, stringsReplaceAll_nil _⟩
    · exact ⟨_, rfl, rfl⟩
  · exact ⟨_, rfl, rfl⟩

/-- C4: when the Link header is non-empty and parses to a mapping whose `self` and
`next` URLs are identical, `retrieveDataFromAPI` and `Get` return, and the cursor
they return is the empty string. -/
theorem cursor_empty_when_next_equals_self {δ : Type} (c : Api) (net : Network)
    (unmarshal : Str → δ → δ × Option GoError) (endpoint : Str) (endpointData : δ)
    (resp : Response) (nextMap : GoMap Str)
    (hget : (c.get net endpoint).result = .ok resp)
    (hlink : resp.headerGet "Link".toList ≠ [])
    (hparse : parseLinkHeader (resp.headerGet "Link".toList) = some nextMap)
    (hsame : GoMap.get nextMap "self".toList = GoMap.get nextMap "next".toList) :
    (∃ r, c.retrieveDataFromAPI net unmarshal endpoint endpointData = some r ∧ r.cursor = []) ∧
    (∃ r, c.Get net unmarshal endpoint endpointData = some r ∧ r.cursor = []) := by
  have h := retrieve_cursor_of_same c net unmarshal endpoint endpointData resp nextMap
    hget hlink hparse hsame
  exact ⟨h, by rw [Api.Get_eq_retrieveDataFromAPI]; exact h⟩

/-- The value `retrieveDataFromAPI` returns after a successful, decodable response
whose Link header gives a `next` URL different from `self`. -/
theorem retrieve_success {δ : Type} (c : Api) (net : Network)
    (unmarshal : Str → δ → δ × Option GoError) (endpoint : Str) (endpointData : δ)
    (resp : Response) (nextMap : GoMap Str)
    (hget : (c.get net endpoint).result = .ok resp)
    (hstatus : resp.StatusCode < 400)
    (hread : resp.Body.failure = none)
    (hdecode : (unmarshal resp.Body.unread endpointData).2 = none)
    (hlink : resp.headerGet "Link".toList ≠ [])
    (hparse : parseLinkHeader (resp.headerGet "Link".toList) = some nextMap)
    (hdiff : GoMap.get nextMap "self".toList ≠ GoMap.get nextMap "next".toList) :
    c.retrieveDataFromAPI net unmarshal endpoint endpointData =
      some { api := c,
             cursor := stringsReplaceAll (GoMap.get nextMap "next".toList) c.baseUrl [],
             err := none,
             data := (unmarshal resp.Body.unread endpointData).1 } := by
  rcases hu : unmarshal resp.Body.unread endpointData with ⟨d, e⟩
  rw [hu] at hdecode
  simp only at hdecode
  subst hdecode
  simp only [Api.retrieveDataFromAPI, hget, hparse, hdiff, hlink, checkStatusForError, hstatus,
    pushDataIntoStruct, ioutilReadAll, hread, hu, Api.get_api, ne_eq, not_false_eq_true,
    if_true, if_false]

/-- C5: for a client from `New`, with base URL `b`, and a relative path `p` that
does not contain `b`: when the response has a status below 400, a body that reads
and decodes, and a Link header whose `next` URL is `b ++ p` and differs from
`self`, `retrieveDataFromAPI` and `Get` return the cursor `p` and no error. -/
theorem cursor_strips_base_url {δ : Type} (key : Str) (sandbox : Bool) (net : Network)
    (unmarshal : Str → δ → δ × Option GoError) (endpoint : Str) (endpointData : δ)
    (resp : Response) (nextMap : GoMap Str) (p : Str)
    (hp : ¬ (New key sandbox).baseUrl <:+: p)
    (hget : ((New key sandbox).get net endpoint).result = .ok resp)
    (hstatus : resp.StatusCode < 400)
    (hread : resp.Body.failure = none)
    (hdecode : (unmarshal resp.Body.unread endpointData).2 = none)
    (hlink : resp.headerGet "Link".toList ≠ [])
    (hparse : parseLinkHeader (resp.headerGet "Link".toList) = some nextMap)
    (hnext : GoMap.get nextMap "next".toList = (New key sandbox).baseUrl ++ p)
    (hdiff : GoMap.get nextMap "self".toList ≠ GoMap.get nextMap "next".toList) :
    (∃ r, (New key sandbox).retrieveDataFromAPI net unmarshal endpoint endpointData = some r ∧
      r.cursor = p ∧ r.err = none) ∧
    (∃ r, (New key sandbox).Get net unmarshal endpoint endpointData = some r ∧
      r.cursor = p ∧ r.err = none) := by
  have hne : (New key sandbox).baseUrl ≠ [] := by
    cases sandbox <;> simp [New, sandboxUrl, productionUrl]
  have h := retrieve_success (New key sandbox) net unmarshal endpoint endpointData resp nextMap
    hget hstatus hread hdecode hlink hparse hdiff
  rw [hnext, stringsReplaceAll_strip_prefix _ _ hne hp] at h
  exact ⟨⟨_, h, rfl, rfl⟩, ⟨_, by rw [Api.Get_eq_retrieveDataFromAPI]; exact h, rfl, rfl⟩⟩

/-- Witness for C4: a single-page listing whose Link header names the same URL as
`self` and `next`. -/
theorem cursor_empty_when_next_equals_self_witness :
    (∃ r, (New "key".toList false).retrieveDataFromAPI
        (tableNetwork [("https://api.invoiced.com/plans".toList,
          { StatusCode := 200,
            Header := [("Link".toList,
              "<https://api.invoiced.com/plans?page=1>; rel=\"self\", <https://api.invoiced.com/plans?page=1>; rel=\"next\"".toList)],
            Body := Reader.ofBody "[\"a\"]".toList })])
        unmarshalNames "/plans".toList [] = some r ∧ r.cursor = []) ∧
    (∃ r, (New "key".toList false).Get
        (tableNetwork [("https://api.invoiced.com/plans".toList,
          { StatusCode := 200,
            Header := [("Link".toList,
              "<https://api.invoiced.com/plans?page=1>; rel=\"self\", <https://api.invoiced.com/plans?page=1>; rel=\"next\"".toList)],
            Body := Reader.ofBody "[\"a\"]".toList })])
        unmarshalNames "/plans".toList [] = some r ∧ r.cursor = []) :=
  cursor_empty_when_next_equals_self (New "key".toList false) _ unmarshalNames "/plans".toList []
    { StatusCode := 200,
      Header := [("Link".toList,
        "<https://api.invoiced.com/plans?page=1>; rel=\"self\", <https://api.invoiced.com/plans?page=1>; rel=\"next\"".toList)],
      Body := Reader.ofBody "[\"a\"]".toList }
    [("self".toList, "https://api.invoiced.com/plans?page=1".toList),
     ("next".toList, "https://api.invoiced.com/plans?page=1".toList)]
    rfl (by decide) rfl rfl

/-- Witness for C5: the first of two pages; the cursor is the path of the second. -/
theorem cursor_strips_base_url_witness :
    (∃ r, (New "key".toList false).retrieveDataFromAPI
        (tableNetwork [("https://api.invoiced.com/plans".toList,
          { StatusCode := 200,
            Header := [("Link".toList,
              "<https://api.invoiced.com/plans?page=1>; rel=\"self\", <https://api.invoiced.com/plans?page=2>; rel=\"next\"".toList)],
            Body := Reader.ofBody "[\"a\"]".toList })])
        unmarshalNames "/plans".toList [] = some r ∧
      r.cursor = "/plans?page=2".toList ∧ r.err = none) ∧
    (∃ r, (New "key".toList false).Get
        (tableNetwork [("https://api.invoiced.com/plans".toList,
          { StatusCode := 200,
            Header := [("Link".toList,
              "<https://api.invoiced.com/plans?page=1>; rel=\"self\", <https://api.invoiced.com/plans?page=2>; rel=\"next\"".toList)],
            Body := Reader.ofBody "[\"a\"]".toList })])
        unmarshalNames "/plans".toList [] = some r ∧
      r.cursor = "/plans?page=2".toList ∧ r.err = none) :=
  cursor_strips_base_url "key".toList false _ unmarshalNames "/plans".toList []
    { StatusCode := 200,
      Header := [("Link".toList,
        "<https://api.invoiced.com/plans?page=1>; rel=\"self\", <https://api.invoiced.com/plans?page=2>; rel=\"next\"".toList)],
      Body := Reader.ofBody "[\"a\"]".toList }
    [("self".toList, "https://api.invoiced.com/plans?page=1".toList),
     ("next".toList, "https://api.invoiced.com/plans?page=2".toList)]
    "/plans?page=2".toList
    (by decide) rfl (by decide) rfl rfl (by decide) rfl rfl (by decide)

/-! ### `ListAll` over a finite chain of pages -/

/-- The receiver `retrieveDataFromAPI` returns is the one it was called on. -/
theorem retrieve_api {δ : Type} (c : Api) (net : Network)
    (unmarshal : Str → δ → δ × Option GoError) (endpoint : Str) (endpointData : δ)
    (r : Retrieved δ) (h : c.retrieveDataFromAPI net unmarshal endpoint endpointData = some r) :
    r.api = c := by
  simp only [Api.retrieveDataFromAPI, Api.get_api] at h
  split at h
  · injection h with h; subst h; rfl
  · split at h
    · exact absurd h (by simp)
    · split at h
      · injection h with h; subst h; rfl
      · split at h <;> (injection h with h; subst h; rfl)

/-- Running the loop from any accumulator over a chain of pages: it returns once
the fuel covers the pages, having appended the pages in order and made one call
per page. -/
theorem listAllLoop_chain {α : Type} (c : Api) (net : Network)
    (unmarshal : Str → List (Item α) → List (Item α) × Option GoError)
    (endPoint : Str) (pages : List (List (Item α)))
    (hchain : PageChain c net unmarshal endPoint pages) :
    ∀ (fuel : Nat) (acc : List (Item α)) (calls : Nat), pages.length ≤ fuel →
      listAllLoop net unmarshal fuel c endPoint acc calls =
        .returned { items := (acc ++ pages.flatten).map fun item =>
                      { item with Connection := some c },
                    err := none, calls := calls + pages.length } := by
  induction hchain with
  | last endPoint items r hcall herr hdata hcursor =>
    intro fuel acc calls hfuel
    cases fuel with
    | zero => simp at hfuel
    | succ fuel =>
      have hapi := retrieve_api c net unmarshal endPoint [] r hcall
      simp [listAllLoop, hcall, herr, hcursor, hdata, hapi]
  | next endPoint items rest r hcall herr hdata hcursor _ ih =>
    intro fuel acc calls hfuel
    cases fuel with
    | zero => simp at hfuel
    | succ fuel =>
      have hapi := retrieve_api c net unmarshal endPoint [] r hcall
      have hfuel' : rest.length ≤ fuel := by simpa using hfuel
      simp only [listAllLoop, hcall, herr, hcursor, hdata, hapi, ne_eq, not_false_eq_true,
        if_true]
      rw [ih fuel (acc ++ items) (calls + 1) hfuel']
      simp [List.append_assoc, Nat.add_assoc, Nat.add_comm 1]

/-- A chain of pages has at least one page. -/
theorem PageChain.length_pos {α : Type} {c : Api} {net : Network}
    {unmarshal : Str → List (Item α) → List (Item α) × Option GoError}
    {endPoint : Str} {pages : List (List (Item α))}
    (hchain : PageChain c net unmarshal endPoint pages) : 1 ≤ pages.length := by
  cases hchain <;> simp

/-- C6: against a server that is a finite chain of `n ≥ 1` successful pages,
`ListAll` terminates (any fuel of at least `n` lets the loop finish), makes exactly
`n` calls to `retrieveDataFromAPI`, and returns no error and the concatenation of
the pages' items in cursor order, each with its connection set. -/
theorem listAll_chain {α : Type} (c : Api) (net : Network)
    (unmarshal : Str → List (Item α) → List (Item α) × Option GoError)
    (endPoint : Str) (pages : List (List (Item α)))
    (hchain : PageChain c net unmarshal endPoint pages) (fuel : Nat)
    (hfuel : pages.length ≤ fuel) :
    1 ≤ pages.length ∧
    ListAll c net unmarshal endPoint fuel =
      .returned { items := pages.flatten.map fun item => { item with Connection := some c },
                  err := none, calls := pages.length } := by
  refine ⟨hchain.length_pos, ?_⟩
  have h := listAllLoop_chain c net unmarshal endPoint pages hchain fuel [] 0 hfuel
  simpa [ListAll] using h

/-- Witness for C6: three pages of two items give six items after three calls. -/
theorem listAll_chain_witness :
    1 ≤ [[named "s1", named "s2"], [named "s3", named "s4"], [named "s5", named "s6"]].length ∧
    ListAll (New "key".toList false) threePages unmarshalNames "/subscriptions".toList 3 =
      .returned
        { items := [[named "s1", named "s2"], [named "s3", named "s4"],
              [named "s5", named "s6"]].flatten.map fun item =>
            { item with Connection := some (New "key".toList false) },
          err := none, calls := 3 } :=
  listAll_chain (New "key".toList false) threePages unmarshalNames "/subscriptions".toList
    [[named "s1", named "s2"], [named "s3", named "s4"], [named "s5", named "s6"]]
    (.next _ _ _
      { api := New "key".toList false, cursor := "/subscriptions?page=2".toList, err := none,
        data := [named "s1", named "s2"] }
      rfl rfl rfl (by decide)
      (.next _ _ _
        { api := New "key".toList false, cursor := "/subscriptions?page=3".toList, err := none,
          data := [named "s3", named "s4"] }
        rfl rfl rfl (by decide)
        (.last _ _
          { api := New "key".toList false, cursor := [], err := none,
            data := [named "s5", named "s6"] }
          rfl rfl rfl rfl)))
    3 (by decide)

/-! ### `strconv.ParseInt` against the value of a base-10 text -/

theorem digit_toNat (c : Char) (h : '0' ≤ c ∧ c ≤ '9') : 48 ≤ c.toNat ∧ c.toNat ≤ 57 := by
  obtain ⟨h0, h9⟩ := h
  have h0' : ('0' : Char).toNat ≤ c.toNat := h0
  have h9' : c.toNat ≤ ('9' : Char).toNat := h9
  exact ⟨h0', h9'⟩

theorem foldl_horner_ge (ds : Str) (n : Nat) : n ≤ ds.foldl hornerStep n := by
  induction ds generalizing n with
  | nil => exact Nat.le_refl _
  | cons c cs ih =>
    have h := ih (hornerStep n c)
    simp only [List.foldl_cons]
    unfold hornerStep at h ⊢
    omega

/-- The digit loop returns the value without error exactly on digit runs whose
value fits a `uint64`; otherwise it returns one of its two errors. -/
theorem parseUintLoop_spec (s0 ds : Str) :
    ∀ n : Nat, n < 2 ^ 64 →
      (ds.all (fun c => decide ('0' ≤ c ∧ c ≤ '9')) = true ∧ ds.foldl hornerStep n < 2 ^ 64 ∧
        strconvParseUintLoop s0 ds n = (ds.foldl hornerStep n, none)) ∨
      ((ds.all (fun c => decide ('0' ≤ c ∧ c ≤ '9')) = false ∨ 2 ^ 64 ≤ ds.foldl hornerStep n) ∧
        (strconvParseUintLoop s0 ds n = (0, some (.numSyntax s0)) ∨
         strconvParseUintLoop s0 ds n = (2 ^ 64 - 1, some (.numRange s0)))) := by
  induction ds with
  | nil =>
    intro n hn
    left
    exact ⟨rfl, hn, rfl⟩
  | cons c cs ih =>
    intro n hn
    by_cases hc : '0' ≤ c ∧ c ≤ '9'
    · have hd := digit_toNat c hc
      have hz : ('0' : Char).toNat = 48 := rfl
      have hmono := foldl_horner_ge cs (hornerStep n c)
      have hstep : hornerStep n c = n * 10 + (c.toNat - 48) := rfl
      by_cases hcut : n ≥ (2 ^ 64 - 1) / 10 + 1
      · right
        refine ⟨Or.inr ?_, Or.inr ?_⟩
        · simp only [List.foldl_cons]
          omega
        · simp only [strconvParseUintLoop, hc, and_self, if_true, hcut]
      · by_cases hfit : n * 10 + (c.toNat - 48) < 2 ^ 64
        · have hloop : strconvParseUintLoop s0 (c :: cs) n =
              strconvParseUintLoop s0 cs (hornerStep n c) := by
            have h1 : (n * 10) % 2 ^ 64 = n * 10 := Nat.mod_eq_of_lt (by omega)
            have h2 : (n * 10 + (c.toNat - 48)) % 2 ^ 64 = n * 10 + (c.toNat - 48) :=
              Nat.mod_eq_of_lt hfit
            have h3 : ¬ (n * 10 + (c.toNat - 48) < n * 10 ∨
                n * 10 + (c.toNat - 48) > 2 ^ 64 - 1) := by omega
            simp only [strconvParseUintLoop, hc, and_self, if_true, hcut, if_false, hz, h1, h2,
              h3, hstep]
          have hall : (c :: cs).all (fun c => decide ('0' ≤ c ∧ c ≤ '9')) =
              cs.all (fun c => decide ('0' ≤ c ∧ c ≤ '9')) := by
            simp [List.all_cons, hc]
          rw [hloop, hall, List.foldl_cons]
          exact ih (hornerStep n c) (by rw [hstep]; exact hfit)
        · right
          refine ⟨Or.inr ?_, Or.inr ?_⟩
          · simp only [List.foldl_cons]
            omega
          · have h1 : (n * 10) % 2 ^ 64 = n * 10 := Nat.mod_eq_of_lt (by omega)
            have h3 : (n * 10 + (c.toNat - 48)) % 2 ^ 64 < n * 10 := by omega
            simp only [strconvParseUintLoop, hc, and_self, if_true, hcut, if_false, hz, h1, h3,
              true_or]
    · right
      refine ⟨Or.inl ?_, Or.inl ?_⟩
      · simp [List.all_cons, hc]
      · simp [strconvParseUintLoop, hc]

theorem decimalValue_of_digits (ds : Str) (hnil : ds ≠ [])
    (hall : ds.all (fun c => decide ('0' ≤ c ∧ c ≤ '9')) = true) :
    decimalValue ds = some (ds.foldl hornerStep 0) := by
  unfold decimalValue
  rw [if_pos ⟨hnil, hall⟩]

theorem decimalValue_of_nondigit (ds : Str)
    (hall : ¬ ds.all (fun c => decide ('0' ≤ c ∧ c ≤ '9')) = true) :
    decimalValue ds = none := by
  unfold decimalValue
  rw [if_neg (fun h => hall h.2)]

theorem parseUint_spec (ds : Str) :
    (∃ v, decimalValue ds = some v ∧ v < 2 ^ 64 ∧ strconvParseUint ds = (v, none)) ∨
    ((decimalValue ds = none ∨ ∃ v, decimalValue ds = some v ∧ 2 ^ 64 ≤ v) ∧
      (strconvParseUint ds = (0, some (.numSyntax ds)) ∨
       strconvParseUint ds = (2 ^ 64 - 1, some (.numRange ds)))) := by
  by_cases hnil : ds = []
  · right
    subst hnil
    exact ⟨Or.inl rfl, Or.inl rfl⟩
  · have hu : strconvParseUint ds = strconvParseUintLoop ds ds 0 := by
      unfold strconvParseUint
      rw [if_neg hnil]
    rcases parseUintLoop_spec ds ds 0 (by decide) with ⟨hall, hlt, hloop⟩ | ⟨hbad, herr⟩
    · left
      exact ⟨ds.foldl hornerStep 0, decimalValue_of_digits ds hnil hall, hlt, by rw [hu, hloop]⟩
    · right
      refine ⟨?_, by rw [hu]; exact herr⟩
      rcases hbad with hall | hge
      · left
        exact decimalValue_of_nondigit ds (by rw [hall]; decide)
      · by_cases hall : ds.all (fun c => decide ('0' ≤ c ∧ c ≤ '9')) = true
        · right
          exact ⟨ds.foldl hornerStep 0, decimalValue_of_digits ds hnil hall, hge⟩
        · left
          exact decimalValue_of_nondigit ds hall

theorem base10Value_other (c : Char) (rest : Str) (hplus : c ≠ '+') (hminus : c ≠ '-') :
    base10Value (c :: rest) = (decimalValue (c :: rest)).map fun v => (v : Int) := by
  unfold base10Value
  split
  · rename_i h; injection h with h1 _; exact absurd h1 hplus
  · rename_i h; injection h with h1 _; exact absurd h1 hminus
  · rfl

/-- What `ParseInt` does with a sign flag and the result of `ParseUint`. -/
theorem parseInt_of_parseUint (c : Char) (rest : Str) :
    strconvParseInt (c :: rest) =
      (match strconvParseUint (if c = '+' ∨ c = '-' then rest else c :: rest) with
       | (_, some (.numSyntax _)) => (0, some (.numSyntax (c :: rest)))
       | (un, _) =>
         if decide (c = '-') = false ∧ un ≥ 2 ^ 63 then (2 ^ 63 - 1, some (.numRange (c :: rest)))
         else if decide (c = '-') = true ∧ un > 2 ^ 63 then
           (-(2 ^ 63), some (.numRange (c :: rest)))
         else (if decide (c = '-') then negInt64 (toInt64 un) else toInt64 un, none)) := rfl

/-- `ParseInt` on a text whose digits are `ds` and whose sign is negative iff
`neg`: the step from `ParseUint` to the signed result. -/
theorem parseInt_core (c : Char) (rest ds : Str) (neg : Bool)
    (hds : (if c = '+' ∨ c = '-' then rest else c :: rest) = ds)
    (hneg : decide (c = '-') = neg) :
    (∃ v : Nat, decimalValue ds = some v ∧
        (if neg then v ≤ 2 ^ 63 else v < 2 ^ 63) ∧
        strconvParseInt (c :: rest) = (if neg then -(v : Int) else (v : Int), none)) ∨
    ((∀ v : Nat, decimalValue ds = some v → ¬ (if neg then v ≤ 2 ^ 63 else v < 2 ^ 63)) ∧
      (strconvParseInt (c :: rest)).2 ≠ none) := by
  rw [parseInt_of_parseUint, hds, hneg]
  rcases parseUint_spec ds with ⟨v, hv, hlt, hres⟩ | ⟨hbad, hres | hres⟩
  · rw [hres]
    dsimp only
    have hm : v % 2 ^ 64 = v := Nat.mod_eq_of_lt hlt
    cases neg with
    | false =>
      have hb : ¬ (false = true ∧ v > 2 ^ 63) := fun h => Bool.noConfusion h.1
      by_cases hr : v < 2 ^ 63
      · left
        have ha : ¬ (false = false ∧ v ≥ 2 ^ 63) := fun h => absurd h.2 (by omega)
        have h2 : toInt64 v = (v : Int) := by
          unfold toInt64
          rw [hm, if_pos hr]
        refine ⟨v, hv, hr, ?_⟩
        rw [if_neg ha, if_neg hb, h2]
        rfl
      · right
        have ha : false = false ∧ v ≥ 2 ^ 63 := ⟨rfl, by omega⟩
        refine ⟨?_, ?_⟩
        · intro w hw
          rw [hv] at hw
          injection hw with hw
          subst hw
          exact hr
        · rw [if_pos ha]
          exact fun h => Option.noConfusion h
    | true =>
      have ha : ¬ (true = false ∧ v ≥ 2 ^ 63) := fun h => Bool.noConfusion h.1
      by_cases hr : v ≤ 2 ^ 63
      · left
        have hb : ¬ (true = true ∧ v > 2 ^ 63) := fun h => absurd h.2 (by omega)
        have h2 : negInt64 (toInt64 v) = -(v : Int) := by
          unfold toInt64 negInt64
          rw [hm]
          by_cases hlt63 : v < 2 ^ 63
          · rw [if_pos hlt63]
            have : ¬ ((v : Int) = -(2 ^ 63)) := by omega
            rw [if_neg this]
          · have hv63 : v = 2 ^ 63 := by omega
            subst hv63
            rfl
        refine ⟨v, hv, hr, ?_⟩
        rw [if_neg ha, if_neg hb, h2]
        rfl
      · right
        have hb : true = true ∧ v > 2 ^ 63 := ⟨rfl, by omega⟩
        refine ⟨?_, ?_⟩
        · intro w hw
          rw [hv] at hw
          injection hw with hw
          subst hw
          exact hr
        · rw [if_neg ha, if_pos hb]
          exact fun h => Option.noConfusion h
  · right
    rw [hres]
    refine ⟨?_, fun h => Option.noConfusion h⟩
    intro w hw
    rcases hbad with hnone | ⟨v, hv, hge⟩
    · rw [hnone] at hw; exact Option.noConfusion hw
    · rw [hv] at hw
      injection hw with hw
      subst hw
      cases neg
      · show ¬ v < 2 ^ 63
        omega
      · show ¬ v ≤ 2 ^ 63
        omega
  · right
    rw [hres]
    dsimp only
    refine ⟨?_, ?_⟩
    · intro w hw
      rcases hbad with hnone | ⟨v, hv, hge⟩
      · rw [hnone] at hw; exact Option.noConfusion hw
      · rw [hv] at hw
        injection hw with hw
        subst hw
        cases neg
        · show ¬ v < 2 ^ 63
          omega
        · show ¬ v ≤ 2 ^ 63
          omega
    · cases neg
      · have ha : false = false ∧ 2 ^ 64 - 1 ≥ 2 ^ 63 := ⟨rfl, by decide⟩
        rw [if_pos ha]
        exact fun h => Option.noConfusion h
      · have ha : ¬ (true = false ∧ 2 ^ 64 - 1 ≥ 2 ^ 63) := fun h => Bool.noConfusion h.1
        have hb : true = true ∧ 2 ^ 64 - 1 > 2 ^ 63 := ⟨rfl, by decide⟩
        rw [if_neg ha, if_pos hb]
        exact fun h => Option.noConfusion h

/-- `ParseInt` returns `n` without error exactly on the base-10 texts of the 64-bit
integers, and an error on every other text. -/
theorem parseInt_spec (s : Str) :
    (∃ n, IsBase10TextOf s n ∧ strconvParseInt s = (n, none)) ∨
    ((∀ n, ¬ IsBase10TextOf s n) ∧ (strconvParseInt s).2 ≠ none) := by
  cases s with
  | nil =>
    right
    exact ⟨fun n h => Option.noConfusion h.1, fun h => Option.noConfusion h⟩
  | cons c rest =>
    by_cases hplus : c = '+'
    · subst hplus
      rcases parseInt_core '+' rest rest false rfl rfl with ⟨v, hv, hb, hres⟩ | ⟨hno, herr⟩
      · left
        have hb' : v < 2 ^ 63 := hb
        refine ⟨(v : Int), ⟨?_, by omega, by omega⟩, hres⟩
        show (decimalValue rest).map (fun v => (v : Int)) = some (v : Int)
        rw [hv]; rfl
      · right
        refine ⟨?_, herr⟩
        rintro n ⟨hval, hlo, hhi⟩
        have hval' : (decimalValue rest).map (fun v => (v : Int)) = some n := hval
        cases hd : decimalValue rest with
        | none => rw [hd] at hval'; exact Option.noConfusion hval'
        | some v =>
          rw [hd] at hval'
          injection hval' with hval'
          have : ¬ v < 2 ^ 63 := hno v hd
          simp only at hval'
          omega
    · by_cases hminus : c = '-'
      · subst hminus
        rcases parseInt_core '-' rest rest true rfl rfl with ⟨v, hv, hb, hres⟩ | ⟨hno, herr⟩
        · left
          have hb' : v ≤ 2 ^ 63 := hb
          refine ⟨-(v : Int), ⟨?_, by omega, by omega⟩, hres⟩
          show (decimalValue rest).map (fun v => -(v : Int)) = some (-(v : Int))
          rw [hv]; rfl
        · right
          refine ⟨?_, herr⟩
          rintro n ⟨hval, hlo, hhi⟩
          have hval' : (decimalValue rest).map (fun v => -(v : Int)) = some n := hval
          cases hd : decimalValue rest with
          | none => rw [hd] at hval'; exact Option.noConfusion hval'
          | some v =>
            rw [hd] at hval'
            injection hval' with hval'
            have : ¬ v ≤ 2 ^ 63 := hno v hd
            simp only at hval'
            omega
      · have hds : (if c = '+' ∨ c = '-' then rest else c :: rest) = c :: rest :=
          if_neg (fun h => h.elim hplus hminus)
        have hneg : decide (c = '-') = false := decide_eq_false hminus
        rcases parseInt_core c rest (c :: rest) false hds hneg with
          ⟨v, hv, hb, hres⟩ | ⟨hno, herr⟩
        · left
          have hb' : v < 2 ^ 63 := hb
          refine ⟨(v : Int), ⟨?_, by omega, by omega⟩, hres⟩
          rw [base10Value_other c rest hplus hminus, hv]; rfl
        · right
          refine ⟨?_, herr⟩
          rintro n ⟨hval, hlo, hhi⟩
          rw [base10Value_other c rest hplus hminus] at hval
          cases hd : decimalValue (c :: rest) with
          | none => rw [hd] at hval; exact Option.noConfusion hval
          | some v =>
            rw [hd] at hval
            injection hval with hval
            have : ¬ v < 2 ^ 63 := hno v hd
            simp only at hval
            omega

/-- `count` after a response with a status below 400 returns what `ParseInt` makes
of the `X-Total-Count` header. -/
theorem count_of_response (c : Api) (net : Network) (endpoint : Str) (resp : Response)
    (hget : (c.get net endpoint).result = .ok resp) (hstatus : resp.StatusCode < 400) :
    c.count net endpoint =
      (match strconvParseInt (resp.headerGet "X-Total-Count".toList) with
       | (_, some err) => (-1, some err)
       | (i, none) => (i, none)) ∧
    c.Count net endpoint =
      (match strconvParseInt (resp.headerGet "X-Total-Count".toList) with
       | (_, some err) => (-1, some err)
       | (i, none) => (i, none)) := by
  simp only [Api.count, Api.Count, hget, checkStatusForError, hstatus, if_true, and_self]

/-- The two facts C7 states, for any function that post-processes `ParseInt` the
way `count` does. -/
theorem count_result_spec (header : Str) (result : Int × Option GoError)
    (hresult : result =
      (match strconvParseInt header with
       | (_, some err) => (-1, some err)
       | (i, none) => (i, none))) :
    (∀ n, result = (n, none) ↔ IsBase10TextOf header n) ∧
    ((∀ n, ¬ IsBase10TextOf header n) → result.2 ≠ none) := by
  rcases parseInt_spec header with ⟨m, hm, hres⟩ | ⟨hno, herr⟩
  · rw [hres] at hresult
    refine ⟨fun n => ⟨fun h => ?_, fun h => ?_⟩, fun h => absurd hm (h m)⟩
    · rw [hresult] at h
      injection h with h1 _
      exact h1 ▸ hm
    · have : n = m := by
        have h1 := h.1
        rw [hm.1] at h1
        injection h1 with h1
        exact h1.symm
      rw [hresult, this]
  · rcases hp : strconvParseInt header with ⟨i, e⟩
    rw [hp] at hresult herr
    cases e with
    | none => exact absurd rfl herr
    | some err =>
      refine ⟨fun n => ⟨fun h => ?_, fun h => absurd h (hno n)⟩, fun _ => ?_⟩
      · rw [hresult] at h
        injection h with _ h2
        exact Option.noConfusion h2
      · rw [hresult]
        exact fun h => Option.noConfusion h

/-- C7: after a response with a status below 400, `count` (and `Count`) returns
`(n, nil)` exactly when the `X-Total-Count` header is a base-10 text of the 64-bit
integer `n` (an optional sign, then decimal digits, of value `n`); when the header
is no such text, in particular when it is missing, the error returned is non-nil,
so no count comes with a nil error. -/
theorem count_reads_total_count (c : Api) (net : Network) (endpoint : Str) (resp : Response)
    (hget : (c.get net endpoint).result = .ok resp) (hstatus : resp.StatusCode < 400) :
    (∀ n, c.count net endpoint = (n, none) ↔
      IsBase10TextOf (resp.headerGet "X-Total-Count".toList) n) ∧
    ((∀ n, ¬ IsBase10TextOf (resp.headerGet "X-Total-Count".toList) n) →
      (c.count net endpoint).2 ≠ none) ∧
    (GoMap.find resp.Header "X-Total-Count".toList = none → (c.count net endpoint).2 ≠ none) ∧
    (∀ n, c.Count net endpoint = (n, none) ↔
      IsBase10TextOf (resp.headerGet "X-Total-Count".toList) n) ∧
    ((∀ n, ¬ IsBase10TextOf (resp.headerGet "X-Total-Count".toList) n) →
      (c.Count net endpoint).2 ≠ none) ∧
    (GoMap.find resp.Header "X-Total-Count".toList = none → (c.Count net endpoint).2 ≠ none) := by
  obtain ⟨h1, h2⟩ := count_of_response c net endpoint resp hget hstatus
  have hc := count_result_spec _ _ h1
  have hC := count_result_spec _ _ h2
  have hmissing : GoMap.find resp.Header "X-Total-Count".toList = none →
      ∀ n, ¬ IsBase10TextOf (resp.headerGet "X-Total-Count".toList) n := by
    intro hnone n h
    have hempty : resp.headerGet "X-Total-Count".toList = [] := by
      unfold Response.headerGet GoMap.get
      rw [hnone]; rfl
    rw [hempty] at h
    exact Option.noConfusion h.1
  exact ⟨hc.1, hc.2, fun h => hc.2 (hmissing h), hC.1, hC.2, fun h => hC.2 (hmissing h)⟩

/-- Witness for C7: header `X-Total-Count: 42` with status 200 gives `42, nil`. -/
theorem count_reads_total_count_witness :
    (New "key".toList false).count
      (tableNetwork [("https://api.invoiced.com/invoices".toList,
        { StatusCode := 200, Header := [("X-Total-Count".toList, "42".toList)],
          Body := Reader.ofBody [] })])
      "/invoices".toList = (42, none) :=
  ((count_reads_total_count (New "key".toList false)
      (tableNetwork [("https://api.invoiced.com/invoices".toList,
        { StatusCode := 200, Header := [("X-Total-Count".toList, "42".toList)],
          Body := Reader.ofBody [] })])
      "/invoices".toList
      { StatusCode := 200, Header := [("X-Total-Count".toList, "42".toList)],
        Body := Reader.ofBody [] }
      rfl (by decide)).1 42).2 ⟨rfl, by decide, by decide⟩

/-! ### `Sort.String` -/

theorem foldl_append_eq_flatten {β : Type} (f : β → Str) (xs : List β) (init : Str) :
    xs.foldl (fun acc x => acc ++ f x) init = init ++ (xs.map f).flatten := by
  induction xs generalizing init with
  | nil => simp
  | cons x xs ih => simp [ih, List.append_assoc]

theorem EndsOffComma.append_left {s : Str} (h : EndsOffComma s) (p : Str) :
    EndsOffComma (p ++ s) := by
  obtain ⟨pre, x, hs, hx⟩ := h
  exact ⟨p ++ pre, x, by rw [hs, List.append_assoc], hx⟩

theorem EndsOffComma.ne_nil {s : Str} (h : EndsOffComma s) : s ≠ [] := by
  obtain ⟨pre, x, hs, _⟩ := h
  rw [hs]
  simp

theorem trimRight_comma_of_ends {s : Str} (h : EndsOffComma s) :
    stringsTrimRight (s ++ ",".toList) ",".toList = s := by
  obtain ⟨pre, x, hs, hx⟩ := h
  subst hs
  show List.rdropWhile (fun c => decide (c ∈ [','])) ((pre ++ [x]) ++ [',']) = pre ++ [x]
  rw [List.rdropWhile_concat_pos _ _ _ (by simp)]
  rw [List.rdropWhile_concat_neg _ _ _ (by simpa using hx)]

theorem joinWith_cons_cons (sep x y : Str) (rest : List Str) :
    joinWith sep (x :: y :: rest) = x ++ sep ++ joinWith sep (y :: rest) := rfl

theorem joinWith_endsOffComma (sep : Str) (xs : List Str) (hne : xs ≠ [])
    (hall : ∀ x ∈ xs, EndsOffComma x) : EndsOffComma (joinWith sep xs) := by
  induction xs with
  | nil => exact absurd rfl hne
  | cons x rest ih =>
    cases rest with
    | nil => exact hall x (by simp)
    | cons y rest =>
      rw [joinWith_cons_cons]
      exact (ih (by simp) (fun z hz => hall z (List.mem_cons_of_mem _ hz))).append_left _

/-- Entries each followed by a comma, concatenated, are the entries joined by
commas followed by one more comma. -/
theorem flatten_comma_eq_joinWith (xs : List Str) (hne : xs ≠ []) :
    (xs.map fun x => x ++ ",".toList).flatten = joinWith ",".toList xs ++ ",".toList := by
  induction xs with
  | nil => exact absurd rfl hne
  | cons x rest ih =>
    cases rest with
    | nil => simp [joinWith]
    | cons y rest =>
      rw [joinWith_cons_cons, List.map_cons, List.flatten_cons, ih (by simp)]
      simp [List.append_assoc]

theorem sortOrder_string_cases (o : SortOrder) :
    o.String = "ASC".toList ∨ o.String = "DESC".toList ∨ o.String = [] := by
  unfold SortOrder.String
  split
  · exact Or.inl rfl
  · split
    · exact Or.inr (Or.inl rfl)
    · exact Or.inr (Or.inr rfl)

theorem sortEntry_endsOffComma (s : Sort_) (column : Str) : EndsOffComma (sortEntry s column) := by
  unfold sortEntry
  rcases sortOrder_string_cases (s.order column) with h | h | h <;> rw [h]
  · exact ⟨column ++ " AS".toList, 'C', by simp, by decide⟩
  · exact ⟨column ++ " DES".toList, 'C', by simp, by decide⟩
  · exact ⟨column, ' ', by simp, by decide⟩

/-- The value stored under `sort`: the entries of the ordered keys joined by
commas, or nothing when there is no key. -/
theorem orderString_eq (s : Sort_) :
    s.orderString =
      if s.orderedKeys = [] then [] else joinWith ",".toList (s.orderedKeys.map (sortEntry s)) := by
  unfold Sort_.orderString
  simp only []
  rw [foldl_append_eq_flatten (fun column =>
    column ++ " ".toList ++ (s.order column).String ++ ",".toList)]
  by_cases hk : s.orderedKeys = []
  · rw [hk, if_pos rfl]
    rfl
  · rw [if_neg hk]
    have hmap : (s.orderedKeys.map fun column =>
          column ++ " ".toList ++ (s.order column).String ++ ",".toList) =
        (s.orderedKeys.map (sortEntry s)).map fun x => x ++ ",".toList := by
      rw [List.map_map]
      rfl
    rw [List.nil_append, hmap, flatten_comma_eq_joinWith _ (by simpa using hk)]
    exact trimRight_comma_of_ends
      (joinWith_endsOffComma _ _ (by simpa using hk) (by
        intro x hx
        obtain ⟨column, _, rfl⟩ := List.mem_map.mp hx
        exact sortEntry_endsOffComma s column))

theorem encode_single_sort (value : Str) :
    (UrlValues.Set [] "sort".toList value).Encode = "sort=".toList ++ urlQueryEscape value := by
  simp [UrlValues.Encode, UrlValues.Set, GoMap.set, GoMap.keys, sortStrings, GoMap.find,
    urlQueryEscape, urlUnreserved]

theorem orderedKeys_sorted (s : Sort_) : s.orderedKeys.Sorted (· ≤ ·) :=
  List.sorted_insertionSort (· ≤ ·) _

theorem orderedKeys_perm (s : Sort_) : s.orderedKeys.Perm (GoMap.keys s.orders) :=
  List.perm_insertionSort (· ≤ ·) _

theorem orderedKeys_eq_nil_iff (s : Sort_) : s.orderedKeys = [] ↔ s.orders = [] := by
  constructor
  · intro h
    have hp := orderedKeys_perm s
    rw [h] at hp
    have : GoMap.keys s.orders = [] := List.perm_nil.mp hp.symm
    simpa [GoMap.keys] using this
  · intro h
    simp [Sort_.orderedKeys, sortStrings, GoMap.keys, h]

theorem sort_string_eq (s : Sort_) :
    s.String =
      (if s.orders = [] then []
       else "sort=".toList ++
         urlQueryEscape (joinWith ",".toList (s.orderedKeys.map (sortEntry s)))) := by
  unfold Sort_.String
  simp only []
  rw [orderString_eq]
  by_cases h : s.orders = []
  · rw [if_pos h, if_pos ((orderedKeys_eq_nil_iff s).mpr h), if_pos rfl]
  · have hk : s.orderedKeys ≠ [] := fun hk => h ((orderedKeys_eq_nil_iff s).mp hk)
    have hne : joinWith ",".toList (s.orderedKeys.map (sortEntry s)) ≠ [] :=
      (joinWith_endsOffComma _ _ (by simpa using hk) (by
        intro x hx
        obtain ⟨column, _, rfl⟩ := List.mem_map.mp hx
        exact sortEntry_endsOffComma s column)).ne_nil
    rw [if_neg h, if_neg hk, if_neg hne, encode_single_sort]

theorem GoMap.mem_keys_iff_find {V : Type} (m : GoMap V) (k : Str) :
    k ∈ GoMap.keys m ↔ (GoMap.find m k).isSome = true := by
  induction m with
  | nil => simp [GoMap.keys, GoMap.find]
  | cons p rest ih =>
    obtain ⟨k', v'⟩ := p
    by_cases h : k' = k
    · subst h
      simp only [GoMap.keys, List.map_cons, List.mem_cons, true_or, GoMap.find, if_true,
        Option.isSome_some]
    · have ih' : k ∈ List.map Prod.fst rest ↔ (GoMap.find rest k).isSome = true := ih
      simp only [GoMap.keys, List.map_cons, List.mem_cons, GoMap.find, h, if_false]
      rw [ih']
      constructor
      · rintro (h1 | h1)
        · exact absurd h1.symm h
        · exact h1
      · exact Or.inr

theorem GoMap.keys_set {V : Type} (m : GoMap V) (k : Str) (v : V) :
    GoMap.keys (GoMap.set m k v) = if k ∈ GoMap.keys m then GoMap.keys m else GoMap.keys m ++ [k] := by
  induction m with
  | nil => simp [GoMap.keys, GoMap.set]
  | cons p rest ih =>
    obtain ⟨k', v'⟩ := p
    have ih' : List.map Prod.fst (GoMap.set rest k v) =
        if k ∈ List.map Prod.fst rest then List.map Prod.fst rest
        else List.map Prod.fst rest ++ [k] := ih
    by_cases h : k' = k
    · subst h
      simp only [GoMap.keys, GoMap.set, if_true, List.map_cons, List.mem_cons, true_or]
    · have h' : ¬ k = k' := fun e => h e.symm
      simp only [GoMap.keys, GoMap.set, h, if_false, List.map_cons, List.mem_cons, h', false_or]
      rw [ih']
      split <;> simp

theorem GoMap.nodup_keys_set {V : Type} (m : GoMap V) (k : Str) (v : V)
    (h : (GoMap.keys m).Nodup) : (GoMap.keys (GoMap.set m k v)).Nodup := by
  rw [GoMap.keys_set]
  split
  · exact h
  · rename_i hk
    exact List.Nodup.append h (List.nodup_singleton k) (by
      intro a ha hb
      rw [List.mem_singleton] at hb
      exact hk (hb ▸ ha))

theorem build_nodup_from (calls : List (Str × SortOrder)) (s : Sort_)
    (h : (GoMap.keys s.orders).Nodup) :
    (GoMap.keys (calls.foldl (fun s call => s.Set call.1 call.2) s).orders).Nodup := by
  induction calls generalizing s with
  | nil => exact h
  | cons call rest ih =>
    exact ih _ (GoMap.nodup_keys_set _ _ _ h)

theorem build_nodup (calls : List (Str × SortOrder)) :
    (GoMap.keys (Sort_.build calls).orders).Nodup :=
  build_nodup_from calls NewSort List.nodup_nil

/-- C8: in the value `Sort.String` serializes for a `Sort` built by `Set` calls, the
columns are exactly the columns set, in strictly increasing lexicographic order;
and two sequences of `Set` calls that end in the same column-to-direction mapping
give the same string. -/
theorem sort_string_order_independent (calls1 calls2 : List (Str × SortOrder))
    (hsame : ∀ column, GoMap.find (Sort_.build calls1).orders column =
      GoMap.find (Sort_.build calls2).orders column) :
    (∃ ks : List Str, ks.Sorted (· < ·) ∧
      (∀ column, column ∈ ks ↔ (GoMap.find (Sort_.build calls1).orders column).isSome = true) ∧
      (Sort_.build calls1).String =
        (if ks = [] then []
         else "sort=".toList ++
           urlQueryEscape (joinWith ",".toList (ks.map (sortEntry (Sort_.build calls1)))))) ∧
    (Sort_.build calls1).String = (Sort_.build calls2).String := by
  have hnd1 := build_nodup calls1
  have hnd2 := build_nodup calls2
  have hp1 := orderedKeys_perm (Sort_.build calls1)
  have hp2 := orderedKeys_perm (Sort_.build calls2)
  constructor
  · refine ⟨(Sort_.build calls1).orderedKeys, ?_, ?_, ?_⟩
    · exact (orderedKeys_sorted _).lt_of_le (hp1.nodup_iff.mpr hnd1)
    · intro column
      rw [hp1.mem_iff, GoMap.mem_keys_iff_find]
    · rw [sort_string_eq]
      by_cases h : (Sort_.build calls1).orders = []
      · rw [if_pos h, if_pos ((orderedKeys_eq_nil_iff _).mpr h)]
      · rw [if_neg h, if_neg (fun hk => h ((orderedKeys_eq_nil_iff _).mp hk))]
  · have hkeys : (GoMap.keys (Sort_.build calls1).orders).Perm
        (GoMap.keys (Sort_.build calls2).orders) := by
      rw [List.perm_ext_iff_of_nodup hnd1 hnd2]
      intro column
      rw [GoMap.mem_keys_iff_find, GoMap.mem_keys_iff_find, hsame]
    have hordered : (Sort_.build calls1).orderedKeys = (Sort_.build calls2).orderedKeys :=
      List.eq_of_perm_of_sorted ((hp1.trans hkeys).trans hp2.symm)
        (orderedKeys_sorted _) (orderedKeys_sorted _)
    have hentry : sortEntry (Sort_.build calls1) = sortEntry (Sort_.build calls2) := by
      funext column
      unfold sortEntry Sort_.order
      rw [hsame]
    have hnil : (Sort_.build calls1).orders = [] ↔ (Sort_.build calls2).orders = [] := by
      rw [← orderedKeys_eq_nil_iff, ← orderedKeys_eq_nil_iff, hordered]
    rw [sort_string_eq, sort_string_eq, hordered, hentry]
    by_cases h : (Sort_.build calls1).orders = []
    · rw [if_pos h, if_pos (hnil.mp h)]
    · rw [if_neg h, if_neg (fun h2 => h (hnil.mpr h2))]

/-- Witness for C8: `name ASC, id DESC` set in two different ways. -/
theorem sort_string_order_independent_witness :
    (Sort_.build [("name".toList, ASC), ("id".toList, DESC)]).String =
      (Sort_.build [("id".toList, ASC), ("name".toList, ASC), ("id".toList, DESC)]).String ∧
    (Sort_.build [("name".toList, ASC), ("id".toList, DESC)]).String =
      "sort=id+DESC%2Cname+ASC".toList :=
  ⟨(sort_string_order_independent [("name".toList, ASC), ("id".toList, DESC)]
      [("id".toList, ASC), ("name".toList, ASC), ("id".toList, DESC)]
      (by
        intro column
        show (if "name".toList = column then some ASC
              else if "id".toList = column then some DESC else none) =
            (if "id".toList = column then some DESC
              else if "name".toList = column then some ASC else none)
        by_cases h1 : "name".toList = column
        · by_cases h2 : "id".toList = column
          · exact absurd (h1.trans h2.symm) (by decide)
          · rw [if_pos h1, if_neg h2, if_pos h1]
        · rw [if_neg h1, if_neg h1])).2,
   by decide⟩

/-! ### Splitting at a one-character separator -/

theorem stringsSplit_nil (x : Char) : stringsSplit [] [x] = [[]] := by
  simp [stringsSplit, stringsSplitAux]

theorem stringsSplit_cons (x c : Char) (cs : Str) :
    stringsSplit (c :: cs) [x] =
      if c = x then [] :: stringsSplit cs [x]
      else
        match stringsSplit cs [x] with
        | piece :: pieces => (c :: piece) :: pieces
        | [] => [[c]] := by
  have hsep : ([x] : Str) ≠ [] := by simp
  unfold stringsSplit
  rw [if_neg hsep, if_neg hsep]
  by_cases h : c = x
  · subst h
    simp [stringsSplitAux, List.isPrefixOf]
  · have h' : ¬ x = c := fun e => h e.symm
    simp [stringsSplitAux, List.isPrefixOf, h, h']

/-- A text without the separator is a single piece. -/
theorem stringsSplit_absent (x : Char) (s : Str) (h : x ∉ s) : stringsSplit s [x] = [s] := by
  induction s with
  | nil => exact stringsSplit_nil x
  | cons c cs ih =>
    have hc : ¬ c = x := fun e => h (by simp [e])
    have hcs : x ∉ cs := fun e => h (List.mem_cons_of_mem _ e)
    rw [stringsSplit_cons, if_neg hc, ih hcs]

/-- The first piece ends at the first separator. -/
theorem stringsSplit_append (x : Char) (a b : Str) (h : x ∉ a) :
    stringsSplit (a ++ x :: b) [x] = a :: stringsSplit b [x] := by
  induction a with
  | nil =>
    show stringsSplit (x :: b) [x] = [] :: stringsSplit b [x]
    rw [stringsSplit_cons, if_pos rfl]
  | cons c cs ih =>
    have hc : ¬ c = x := fun e => h (by simp [e])
    have hcs : x ∉ cs := fun e => h (List.mem_cons_of_mem _ e)
    show stringsSplit (c :: (cs ++ x :: b)) [x] = (c :: cs) :: stringsSplit b [x]
    rw [stringsSplit_cons, if_neg hc, ih hcs]

/-- Splitting a `, `-joined header at commas gives back the entries, each but the
first with the blank that followed its comma. -/
theorem stringsSplit_joinWith (x : Str) (xs : List Str)
    (hx : ',' ∉ x) (hxs : ∀ y ∈ xs, ',' ∉ y) :
    stringsSplit (joinWith ", ".toList (x :: xs)) ",".toList =
      x :: xs.map fun y => ' ' :: y := by
  induction xs generalizing x with
  | nil => exact stringsSplit_absent ',' x hx
  | cons y ys ih =>
    have hassoc : x ++ ", ".toList ++ joinWith ", ".toList (y :: ys) =
        x ++ ',' :: (' ' :: joinWith ", ".toList (y :: ys)) := by
      simp [List.append_assoc]
    rw [joinWith_cons_cons, hassoc]
    show stringsSplit (x ++ ',' :: (' ' :: joinWith ", ".toList (y :: ys))) [','] = _
    rw [stringsSplit_append ',' x _ hx]
    have hy : ',' ∉ y := hxs y (by simp)
    have hys : ∀ z ∈ ys, ',' ∉ z := fun z hz => hxs z (List.mem_cons_of_mem _ hz)
    have := ih y hy hys
    have hsplit : stringsSplit (' ' :: joinWith ", ".toList (y :: ys)) [','] =
        (' ' :: y) :: ys.map fun z => ' ' :: z := by
      rw [stringsSplit_cons, if_neg (by decide)]
      have h2 : stringsSplit (joinWith ", ".toList (y :: ys)) [','] =
          y :: ys.map fun z => ' ' :: z := this
      rw [h2]
    rw [hsplit]
    rfl

/-! ### Trimming -/

theorem exists_concat_of_ne_nil (l : Str) (h : l ≠ []) : ∃ init x, l = init ++ [x] :=
  ⟨l.dropLast, l.getLast h, (List.dropLast_append_getLast h).symm⟩

/-- Trimming at both ends changes nothing when neither end can be trimmed. -/
theorem trim_fixed (p : Char → Bool) (l : Str)
    (hhead : ∀ c cs, l = c :: cs → p c = false)
    (hlast : ∀ init x, l = init ++ [x] → p x = false) :
    (l.dropWhile p).rdropWhile p = l := by
  cases l with
  | nil => simp [List.rdropWhile_nil]
  | cons c cs =>
    have h1 : (c :: cs).dropWhile p = c :: cs := by
      rw [List.dropWhile_cons_of_neg]
      rw [hhead c cs rfl]
      decide
    rw [h1]
    obtain ⟨init, x, h⟩ := exists_concat_of_ne_nil (c :: cs) (by simp)
    rw [h]
    have hx : p x = false := hlast init x h
    exact List.rdropWhile_concat_neg p init x (by rw [hx]; decide)

theorem unquotedSafe_mem {url : Str} (h : unquotedSafe url = true) {c : Char} (hc : c ∈ url) :
    c ≠ '<' ∧ c ≠ '>' ∧ c ≠ ',' ∧ c ≠ ';' ∧ c ≠ '"' ∧ unicodeIsSpace c = false := by
  unfold unquotedSafe at h
  rw [List.all_eq_true] at h
  have := h c hc
  simpa using this

theorem stringsTrimSpace_fixed (l : Str)
    (hhead : ∀ c cs, l = c :: cs → unicodeIsSpace c = false)
    (hlast : ∀ init x, l = init ++ [x] → unicodeIsSpace x = false) :
    stringsTrimSpace l = l :=
  trim_fixed unicodeIsSpace l hhead hlast

/-- `parseLinkUrl` recovers a safe URL from `<url>`, also after a blank. -/
theorem parseLinkUrl_entry (pad url : Str) (hpad : pad = [] ∨ pad = [' '])
    (hne : url ≠ []) (hsafe : unquotedSafe url = true) :
    parseLinkUrl (pad ++ '<' :: (url ++ ['>'])) = url := by
  have hfirst : ∀ c cs, url = c :: cs → c ≠ '<' ∧ c ≠ '>' ∧ unicodeIsSpace c = false := by
    intro c cs h
    have := unquotedSafe_mem hsafe (c := c) (by rw [h]; simp)
    exact ⟨this.1, this.2.1, this.2.2.2.2.2⟩
  have hend : ∀ init x, url = init ++ [x] → x ≠ '>' ∧ unicodeIsSpace x = false := by
    intro init x h
    have := unquotedSafe_mem hsafe (c := x) (by rw [h]; simp)
    exact ⟨this.2.1, this.2.2.2.2.2⟩
  obtain ⟨c, cs, hcs⟩ : ∃ c cs, url = c :: cs := by
    cases url with
    | nil => exact absurd rfl hne
    | cons c cs => exact ⟨c, cs, rfl⟩
  obtain ⟨init, x, hix⟩ := exists_concat_of_ne_nil url hne
  -- first TrimSpace
  have h1 : stringsTrimSpace (pad ++ '<' :: (url ++ ['>'])) = '<' :: (url ++ ['>']) := by
    have hdrop : (pad ++ '<' :: (url ++ ['>'])).dropWhile unicodeIsSpace =
        '<' :: (url ++ ['>']) := by
      rcases hpad with h | h <;> subst h
      · exact List.dropWhile_cons_of_neg (by decide)
      · show List.dropWhile unicodeIsSpace (' ' :: '<' :: (url ++ ['>'])) = _
        rw [List.dropWhile_cons_of_pos (by decide)]
        exact List.dropWhile_cons_of_neg (by decide)
    unfold stringsTrimSpace
    rw [hdrop]
    have : '<' :: (url ++ ['>']) = ('<' :: url) ++ ['>'] := rfl
    rw [this]
    exact List.rdropWhile_concat_neg _ _ _ (by decide)
  -- Trim "<"
  have h2 : stringsTrim ('<' :: (url ++ ['>'])) "<".toList = url ++ ['>'] := by
    unfold stringsTrim
    have hdrop : ('<' :: (url ++ ['>'])).dropWhile (fun c => decide (c ∈ "<".toList)) =
        url ++ ['>'] := by
      rw [List.dropWhile_cons_of_pos (by decide), hcs]
      exact List.dropWhile_cons_of_neg (by
        have := (hfirst c cs hcs).1
        simpa using this)
    rw [hdrop]
    exact List.rdropWhile_concat_neg _ _ _ (by decide)
  -- Trim ">"
  have h3 : stringsTrim (url ++ ['>']) ">".toList = url := by
    unfold stringsTrim
    have hdrop : (url ++ ['>']).dropWhile (fun c => decide (c ∈ ">".toList)) = url ++ ['>'] := by
      rw [hcs]
      exact List.dropWhile_cons_of_neg (by
        have := (hfirst c cs hcs).2.1
        simpa using this)
    rw [hdrop, List.rdropWhile_concat_pos _ _ _ (by decide), hix]
    exact List.rdropWhile_concat_neg _ _ _ (by
      have := (hend init x hix).1
      simpa using this)
  -- last TrimSpace
  have h4 : stringsTrimSpace url = url :=
    stringsTrimSpace_fixed url (fun c cs h => (hfirst c cs h).2.2)
      (fun init x h => (hend init x h).2)
  unfold parseLinkUrl
  simp only []
  rw [h1, h2, h3, h4]

/-! ### The relation part of a header entry -/

theorem stringsLastIndexFrom_concat (q : Char) (l : Str) (i best : Int) :
    stringsLastIndexFrom [q] (l ++ [q]) i best = i + l.length := by
  induction l generalizing i best with
  | nil => simp [stringsLastIndexFrom, List.isPrefixOf]
  | cons c cs ih =>
    show stringsLastIndexFrom [q] (c :: (cs ++ [q])) i best = _
    rw [stringsLastIndexFrom, ih]
    simp only [List.length_cons, Nat.cast_add, Nat.cast_one]
    omega

theorem relationSafe_spec {relation : Str} (h : relationSafe relation = true) :
    (∀ c ∈ relation, c ≠ ',' ∧ c ≠ ';') ∧
    (∀ c cs, relation = c :: cs → unicodeIsSpace c = false) ∧
    (∀ init x, relation = init ++ [x] → unicodeIsSpace x = false) := by
  unfold relationSafe at h
  simp only [Bool.and_eq_true, List.all_eq_true, bne_iff_ne, ne_eq] at h
  obtain ⟨⟨hall, hhead⟩, hlast⟩ := h
  refine ⟨fun c hc => by simpa using hall c hc, ?_, ?_⟩
  · intro c cs hrel
    subst hrel
    cases hs : unicodeIsSpace c with
    | false => rfl
    | true => exact absurd (by simp [hs]) hhead
  · intro init x hrel
    subst hrel
    cases hs : unicodeIsSpace x with
    | false => rfl
    | true => exact absurd (by simp [hs]) hlast

/-- `parseRelValue` recovers a safe relation name from ` rel="relation"`. -/
theorem parseRelValue_entry (relation : Str) (hsafe : relationSafe relation = true) :
    parseRelValue (" rel=\"".toList ++ relation ++ "\"".toList) = some relation := by
  obtain ⟨_, hhead, hlast⟩ := relationSafe_spec hsafe
  have hfirst : stringsIndex (" rel=\"".toList ++ relation ++ "\"".toList) "\"".toList = 5 := by
    show stringsIndexFrom ['"'] (' ' :: 'r' :: 'e' :: 'l' :: '=' :: '"' :: (relation ++ ['"'])) 0
      = 5
    simp [stringsIndexFrom, List.isPrefixOf]
  have hlastIdx : stringsLastIndex (" rel=\"".toList ++ relation ++ "\"".toList) "\"".toList =
      ((" rel=\"".toList ++ relation).length : Int) := by
    unfold stringsLastIndex
    show stringsLastIndexFrom ['"'] ((" rel=\"".toList ++ relation) ++ ['"']) 0 (-1) = _
    rw [stringsLastIndexFrom_concat]
    simp
  have hslice : goSlice (" rel=\"".toList ++ relation ++ "\"".toList) (5 + 1)
      ((" rel=\"".toList ++ relation).length : Int) = some relation := by
    unfold goSlice
    have hlen : (" rel=\"".toList ++ relation).length = 6 + relation.length := by
      show (' ' :: 'r' :: 'e' :: 'l' :: '=' :: '"' :: relation).length = _
      simp only [List.length_cons]
      omega
    have hcond : (0 : Int) ≤ 5 + 1 ∧ (5 + 1 : Int) ≤ ((" rel=\"".toList ++ relation).length : Int) ∧
        ((" rel=\"".toList ++ relation).length : Int) ≤
          ((" rel=\"".toList ++ relation ++ "\"".toList).length : Nat) := by
      rw [List.length_append (" rel=\"".toList ++ relation), hlen]
      refine ⟨by decide, ?_, ?_⟩ <;> push_cast <;> omega
    rw [if_pos hcond]
    have htake : (" rel=\"".toList ++ relation ++ "\"".toList).take
        (((" rel=\"".toList ++ relation).length : Int)).toNat = " rel=\"".toList ++ relation := by
      rw [Int.toNat_ofNat]
      exact List.take_left' rfl
    rw [htake]
    have hdrop : (" rel=\"".toList ++ relation).drop ((5 + 1 : Int)).toNat = relation := by
      have : ((5 + 1 : Int)).toNat = (" rel=\"".toList).length := by decide
      rw [this]
      exact List.drop_left' rfl
    rw [hdrop]
  unfold parseRelValue
  simp only []
  rw [hfirst, hlastIdx, hslice]
  simp only []
  rw [stringsTrimSpace_fixed relation hhead hlast]

/-! ### Parsing a rendered header -/

theorem renderLinkEntry_form (entry : Str × Str) :
    renderLinkEntry entry =
      ('<' :: (entry.2 ++ ['>'])) ++ ';' :: (" rel=\"".toList ++ entry.1 ++ "\"".toList) := by
  unfold renderLinkEntry
  simp [List.append_assoc]

theorem renderLinkEntry_no_comma (entry : Str × Str)
    (hrel : relationSafe entry.1 = true) (hurl : unquotedSafe entry.2 = true) :
    ',' ∉ renderLinkEntry entry := by
  intro h
  rw [renderLinkEntry_form] at h
  simp only [List.mem_append, List.mem_cons, List.mem_singleton] at h
  have hu : ',' ∉ entry.2 := fun hm => (unquotedSafe_mem hurl hm).2.2.1 rfl
  have hr : ',' ∉ entry.1 := fun hm => ((relationSafe_spec hrel).1 _ hm).1 rfl
  rcases h with (h | h | h) | h | h
  · exact absurd h (by decide)
  · exact hu h
  · exact absurd h (by decide)
  · exact absurd h (by decide)
  · rcases h with (h | h) | h
    · revert h; decide
    · exact hr h
    · revert h; decide

/-- One segment of a rendered header, possibly after a blank, splits at its `;`
into the URL part and the relation part. -/
theorem segment_split (pad : Str) (entry : Str × Str) (hpad : pad = [] ∨ pad = [' '])
    (hrel : relationSafe entry.1 = true) (hurl : unquotedSafe entry.2 = true) :
    stringsSplit (pad ++ renderLinkEntry entry) ";".toList =
      [pad ++ '<' :: (entry.2 ++ ['>']), " rel=\"".toList ++ entry.1 ++ "\"".toList] := by
  have hu : ';' ∉ entry.2 := fun hm => (unquotedSafe_mem hurl hm).2.2.2.1 rfl
  have hr : ';' ∉ entry.1 := fun hm => ((relationSafe_spec hrel).1 _ hm).2 rfl
  have hleft : ';' ∉ pad ++ '<' :: (entry.2 ++ ['>']) := by
    intro h
    simp only [List.mem_append, List.mem_cons, List.mem_singleton] at h
    rcases h with h | h | h | h
    · rcases hpad with hp | hp <;> subst hp <;> revert h <;> decide
    · exact absurd h (by decide)
    · exact hu h
    · exact absurd h (by decide)
  have hright : ';' ∉ " rel=\"".toList ++ entry.1 ++ "\"".toList := by
    intro h
    simp only [List.mem_append] at h
    rcases h with (h | h) | h
    · revert h; decide
    · exact hr h
    · revert h; decide
  have hform : pad ++ renderLinkEntry entry =
      (pad ++ '<' :: (entry.2 ++ ['>'])) ++ ';' :: (" rel=\"".toList ++ entry.1 ++ "\"".toList) := by
    rw [renderLinkEntry_form]
    exact (List.append_assoc _ _ _).symm
  rw [hform]
  show stringsSplit _ [';'] = _
  rw [stringsSplit_append ';' _ _ hleft, stringsSplit_absent ';' _ hright]

/-- The loop body on one rendered segment stores the entry. -/
theorem parseLinkSegments_entry (pad : Str) (entry : Str × Str) (rest : List Str)
    (acc : GoMap Str) (hpad : pad = [] ∨ pad = [' '])
    (hrel : relationSafe entry.1 = true) (hne : entry.2 ≠ [])
    (hurl : unquotedSafe entry.2 = true) :
    parseLinkSegments ((pad ++ renderLinkEntry entry) :: rest) acc =
      parseLinkSegments rest (GoMap.set acc entry.1 entry.2) := by
  rw [parseLinkSegments]
  simp only []
  rw [segment_split pad entry hpad hrel hurl]
  simp only [List.getElem?_cons_zero, List.getElem?_cons_succ]
  rw [parseLinkUrl_entry pad entry.2 hpad hne hurl, parseRelValue_entry entry.1 hrel]

theorem parseLinkSegments_padded (entries : List (Str × Str)) (acc : GoMap Str)
    (hsafe : ∀ entry ∈ entries,
      relationSafe entry.1 = true ∧ entry.2 ≠ [] ∧ unquotedSafe entry.2 = true) :
    parseLinkSegments (entries.map fun entry => ' ' :: renderLinkEntry entry) acc =
      some (entries.foldl (fun m entry => GoMap.set m entry.1 entry.2) acc) := by
  induction entries generalizing acc with
  | nil => rfl
  | cons entry rest ih =>
    obtain ⟨h1, h2, h3⟩ := hsafe entry (by simp)
    rw [List.map_cons]
    have := parseLinkSegments_entry [' '] entry
      (rest.map fun entry => ' ' :: renderLinkEntry entry) acc (Or.inr rfl) h1 h2 h3
    rw [show ' ' :: renderLinkEntry entry = [' '] ++ renderLinkEntry entry from rfl, this]
    exact ih _ (fun e he => hsafe e (List.mem_cons_of_mem _ he))

theorem GoMap.set_absent {V : Type} (m : GoMap V) (k : Str) (v : V) (h : k ∉ GoMap.keys m) :
    GoMap.set m k v = m ++ [(k, v)] := by
  induction m with
  | nil => rfl
  | cons p rest ih =>
    obtain ⟨k', v'⟩ := p
    have hk : ¬ k' = k := fun e => h (by
      subst e
      simp only [GoMap.keys, List.map_cons, List.mem_cons, true_or])
    have hrest : k ∉ GoMap.keys rest := fun e => h (by
      simp only [GoMap.keys, List.map_cons, List.mem_cons]
      exact Or.inr e)
    simp only [GoMap.set, hk, if_false, List.cons_append]
    rw [ih hrest]

theorem foldl_set_distinct (entries : List (Str × Str)) (acc : GoMap Str)
    (h : (GoMap.keys (acc ++ entries)).Nodup) :
    entries.foldl (fun m entry => GoMap.set m entry.1 entry.2) acc = acc ++ entries := by
  induction entries generalizing acc with
  | nil => simp
  | cons entry rest ih =>
    have hnot : entry.1 ∉ GoMap.keys acc := by
      intro hmem
      simp only [GoMap.keys, List.map_append, List.map_cons] at h hmem
      rw [List.nodup_append] at h
      exact h.2.2 hmem (List.mem_cons_self _ _)
    rw [List.foldl_cons, GoMap.set_absent acc entry.1 entry.2 hnot]
    have h' : (GoMap.keys ((acc ++ [(entry.1, entry.2)]) ++ rest)).Nodup := by
      simpa [List.append_assoc] using h
    rw [ih _ h']
    simp [List.append_assoc]

/-- C10, as stated, fails: the empty mapping renders to the empty header, on which
`parseLinkHeader` panics, and a relation name with a leading blank comes back
without it, although every URL involved is non-empty and unquoted-safe. -/
theorem link_header_round_trip_fails :
    parseLinkHeader (renderLinkHeader []) = none ∧
    (unquotedSafe "https://a".toList = true ∧
      parseLinkHeader (renderLinkHeader [(" next".toList, "https://a".toList)]) =
        some [("next".toList, "https://a".toList)]) ∧
    ¬ (∀ m : GoMap Str, (GoMap.keys m).Nodup →
        (∀ entry ∈ m, entry.2 ≠ [] ∧ unquotedSafe entry.2 = true) →
        parseLinkHeader (renderLinkHeader m) = some m) := by
  refine ⟨by decide, by decide, ?_⟩
  intro h
  have := h [] (by decide) (by decide)
  revert this
  decide

/-- C10, amended: for every non-empty relation-to-URL mapping whose relation names
have no `,` or `;` and no white space at either end, and whose URLs are non-empty
and unquoted-safe, parsing the rendered header returns the mapping. -/
theorem link_header_round_trip (m : GoMap Str) (hne : m ≠ []) (hkeys : (GoMap.keys m).Nodup)
    (hsafe : ∀ entry ∈ m,
      relationSafe entry.1 = true ∧ entry.2 ≠ [] ∧ unquotedSafe entry.2 = true) :
    parseLinkHeader (renderLinkHeader m) = some m := by
  cases m with
  | nil => exact absurd rfl hne
  | cons entry rest =>
    obtain ⟨h1, h2, h3⟩ := hsafe entry (by simp)
    have hrest : ∀ e ∈ rest,
        relationSafe e.1 = true ∧ e.2 ≠ [] ∧ unquotedSafe e.2 = true :=
      fun e he => hsafe e (List.mem_cons_of_mem _ he)
    unfold parseLinkHeader renderLinkHeader
    rw [List.map_cons, stringsSplit_joinWith _ _ (renderLinkEntry_no_comma entry h1 h3) (by
      intro y hy
      obtain ⟨e, he, rfl⟩ := List.mem_map.mp hy
      exact renderLinkEntry_no_comma e (hrest e he).1 (hrest e he).2.2)]
    have hfirst := parseLinkSegments_entry [] entry
      ((rest.map renderLinkEntry).map fun y => ' ' :: y) [] (Or.inl rfl) h1 h2 h3
    rw [List.nil_append] at hfirst
    rw [hfirst, List.map_map]
    have hpadded := parseLinkSegments_padded rest (GoMap.set [] entry.1 entry.2) hrest
    have hfun : ((fun y => ' ' :: y) ∘ renderLinkEntry) =
        fun e : Str × Str => ' ' :: renderLinkEntry e := rfl
    rw [hfun, hpadded]
    have hacc : GoMap.set ([] : GoMap Str) entry.1 entry.2 = [entry] := rfl
    rw [hacc, foldl_set_distinct rest [entry] hkeys]
    rfl

/-- Witness for C10 amended: the `self` and `next` links of a first page. -/
theorem link_header_round_trip_witness :
    parseLinkHeader
        (renderLinkHeader
          [("self".toList, "https://api.invoiced.com/plans?page=1".toList),
           ("next".toList, "https://api.invoiced.com/plans?page=2".toList)]) =
      some [("self".toList, "https://api.invoiced.com/plans?page=1".toList),
            ("next".toList, "https://api.invoiced.com/plans?page=2".toList)] :=
  link_header_round_trip
    [("self".toList, "https://api.invoiced.com/plans?page=1".toList),
     ("next".toList, "https://api.invoiced.com/plans?page=2".toList)]
    (by decide) (by decide) (by decide)

/-! ### The error decoder and the response body -/

/-- C12, as stated, fails: at status 200 `checkStatusForError` returns before any
read, so the two bytes of the body `[]` are still unread after the call. -/
theorem success_status_leaves_body_unread :
    (checkStatusForError 200 (Reader.ofBody "[]".toList)).2.unread = "[]".toList ∧
    (checkStatusForError 200 (Reader.ofBody "[]".toList)).2.unread ≠ [] := by
  decide

/-- C12, amended: for every status and every reader state, `checkStatusForError`
leaves the reader untouched when the status is below 400, and otherwise drains it
with its single `ReadAll`: no unread bytes are left, and the error it returns is
the reader's failure or is built from the whole of what was unread.  (The body of
a response below 400 is drained by `pushDataIntoStruct`.) -/
theorem checkStatusForError_reader (status : Int) (r : Reader) :
    (checkStatusForError status r).2 = (if status < 400 then r else { r with unread := [] }) ∧
    (checkStatusForError status r).1 =
      (if status < 400 then none
       else
         match r.failure with
         | some err => some err
         | none => some (.apiError (buildAPIError r.unread))) ∧
    ∀ (δ : Type) (unmarshal : Str → δ → δ × Option GoError) (endpointData : δ),
      (pushDataIntoStruct unmarshal endpointData r).2.2 = { r with unread := [] } := by
  refine ⟨?_, ?_, ?_⟩
  · unfold checkStatusForError
    by_cases h : status < 400
    · rw [if_pos h, if_pos h]
    · rw [if_neg h, if_neg h]
      unfold ioutilReadAll
      cases r.failure <;> rfl
  · unfold checkStatusForError
    by_cases h : status < 400
    · rw [if_pos h, if_pos h]
    · rw [if_neg h, if_neg h]
      unfold ioutilReadAll
      cases r.failure <;> rfl
  · intro δ unmarshal endpointData
    unfold pushDataIntoStruct ioutilReadAll
    cases hf : r.failure with
    | some err => rfl
    | none =>
      dsimp only
      rcases unmarshal r.unread endpointData with ⟨d, _ | e⟩ <;> rfl

/-! ### Retrieval after an error status -/

/-- C11, as stated, fails: the Link header is parsed before the status is looked
at, so at status 500 a Link header without `;` makes `retrieveDataFromAPI` and
`Get` panic instead of returning the API error. -/
theorem error_status_with_bad_link_panics :
    (New "key".toList false).retrieveDataFromAPI
        (tableNetwork [("https://api.invoiced.com/plans".toList,
          { StatusCode := 500, Header := [("Link".toList, "x".toList)],
            Body := Reader.ofBody "not json".toList })])
        unmarshalNames "/plans".toList [] = none ∧
    (New "key".toList false).Get
        (tableNetwork [("https://api.invoiced.com/plans".toList,
          { StatusCode := 500, Header := [("Link".toList, "x".toList)],
            Body := Reader.ofBody "not json".toList })])
        unmarshalNames "/plans".toList [] = none := by
  constructor <;> rfl

/-- What `retrieveDataFromAPI` returns after a response with an error status whose
Link header is empty or parses. -/
theorem retrieve_error_status {δ : Type} (c : Api) (net : Network)
    (unmarshal : Str → δ → δ × Option GoError) (endpoint : Str) (endpointData : δ)
    (resp : Response)
    (hget : (c.get net endpoint).result = .ok resp)
    (hstatus : resp.StatusCode ≥ 400)
    (hlink : resp.headerGet "Link".toList = [] ∨
      parseLinkHeader (resp.headerGet "Link".toList) ≠ none) :
    ∃ err, (checkStatusForError resp.StatusCode resp.Body).1 = some err ∧
      c.retrieveDataFromAPI net unmarshal endpoint endpointData =
        some { api := c, cursor := [], err := some err, data := endpointData } := by
  have hlt : ¬ resp.StatusCode < 400 := by omega
  have herr : ∃ err rdr, checkStatusForError resp.StatusCode resp.Body = (some err, rdr) := by
    unfold checkStatusForError ioutilReadAll
    rw [if_neg hlt]
    cases hf : resp.Body.failure with
    | some e => exact ⟨e, _, rfl⟩
    | none => exact ⟨_, _, rfl⟩
  obtain ⟨err, rdr, hcheck⟩ := herr
  refine ⟨err, by rw [hcheck], ?_⟩
  simp only [Api.retrieveDataFromAPI, hget, Api.get_api, ne_eq]
  by_cases hempty : resp.headerGet "Link".toList = []
  · simp only [hempty, not_true_eq_false, if_false, hcheck]
  · have hparse : parseLinkHeader (resp.headerGet "Link".toList) ≠ none :=
      hlink.resolve_left hempty
    cases hp : parseLinkHeader (resp.headerGet "Link".toList) with
    | none => exact absurd hp hparse
    | some nextMap =>
      by_cases hsame : GoMap.get nextMap "self".toList = GoMap.get nextMap "next".toList
      · simp only [hempty, not_false_eq_true, if_true, hsame, not_true_eq_false, if_false,
          hcheck]
      · simp only [hempty, not_false_eq_true, if_true, hsame, hcheck]

/-- C11, amended: for every response with a status of at least 400 whose Link
header is empty or parses without a panic, whatever its body and whatever decoder
the destination has, `retrieveDataFromAPI` and `Get` return the empty cursor, the
non-nil error of `checkStatusForError` (the API error built from the body when the
body reads cleanly), and the destination unchanged: the body is not decoded. -/
theorem error_status_short_circuits {δ : Type} (c : Api) (net : Network)
    (unmarshal : Str → δ → δ × Option GoError) (endpoint : Str) (endpointData : δ)
    (resp : Response)
    (hget : (c.get net endpoint).result = .ok resp)
    (hstatus : resp.StatusCode ≥ 400)
    (hlink : resp.headerGet "Link".toList = [] ∨
      parseLinkHeader (resp.headerGet "Link".toList) ≠ none) :
    ∃ err,
      c.retrieveDataFromAPI net unmarshal endpoint endpointData =
        some { api := c, cursor := [], err := some err, data := endpointData } ∧
      c.Get net unmarshal endpoint endpointData =
        some { api := c, cursor := [], err := some err, data := endpointData } ∧
      (resp.Body.failure = none → err = .apiError (buildAPIError resp.Body.unread)) := by
  obtain ⟨err, hcheck, hret⟩ :=
    retrieve_error_status c net unmarshal endpoint endpointData resp hget hstatus hlink
  refine ⟨err, hret, by rw [Api.Get_eq_retrieveDataFromAPI]; exact hret, ?_⟩
  intro hclean
  have hlt : ¬ resp.StatusCode < 400 := by omega
  unfold checkStatusForError ioutilReadAll at hcheck
  rw [if_neg hlt, hclean] at hcheck
  injection hcheck with hcheck
  exact hcheck.symm

/-- Witness for C11 amended: a 404 with a structured error body and a well-formed
Link header; the decoder that would replace the destination is never run. -/
theorem error_status_short_circuits_witness :
    ∃ err,
      (New "key".toList false).retrieveDataFromAPI
          (tableNetwork [("https://api.invoiced.com/plans/7".toList,
            { StatusCode := 404,
              Header := [("Link".toList, "<https://api.invoiced.com/plans/7>; rel=\"self\"".toList)],
              Body := Reader.ofBody
                "\x7b\"type\":\"invalid_request\",\"message\":\"not found\"\x7d".toList })])
          unmarshalNames "/plans/7".toList [named "kept"] =
        some { api := New "key".toList false, cursor := [], err := some err,
               data := [named "kept"] } ∧
      (New "key".toList false).Get
          (tableNetwork [("https://api.invoiced.com/plans/7".toList,
            { StatusCode := 404,
              Header := [("Link".toList, "<https://api.invoiced.com/plans/7>; rel=\"self\"".toList)],
              Body := Reader.ofBody
                "\x7b\"type\":\"invalid_request\",\"message\":\"not found\"\x7d".toList })])
          unmarshalNames "/plans/7".toList [named "kept"] =
        some { api := New "key".toList false, cursor := [], err := some err,
               data := [named "kept"] } ∧
      ((Reader.ofBody "\x7b\"type\":\"invalid_request\",\"message\":\"not found\"\x7d".toList).failure
          = none →
        err = .apiError (buildAPIError
          (Reader.ofBody
            "\x7b\"type\":\"invalid_request\",\"message\":\"not found\"\x7d".toList).unread)) :=
  error_status_short_circuits (New "key".toList false)
    (tableNetwork [("https://api.invoiced.com/plans/7".toList,
      { StatusCode := 404,
        Header := [("Link".toList, "<https://api.invoiced.com/plans/7>; rel=\"self\"".toList)],
        Body := Reader.ofBody
          "\x7b\"type\":\"invalid_request\",\"message\":\"not found\"\x7d".toList })])
    unmarshalNames "/plans/7".toList [named "kept"]
    { StatusCode := 404,
      Header := [("Link".toList, "<https://api.invoiced.com/plans/7>; rel=\"self\"".toList)],
      Body := Reader.ofBody "\x7b\"type\":\"invalid_request\",\"message\":\"not found\"\x7d".toList }
    rfl (by decide) (Or.inr (by decide))

/-! ### Where the quotes of a text are -/

theorem stringsIndexFrom_absent (q : Char) (s : Str) (i : Int) (h : q ∉ s) :
    stringsIndexFrom [q] s i = -1 := by
  induction s generalizing i with
  | nil => simp [stringsIndexFrom]
  | cons c cs ih =>
    have hc : ¬ q = c := fun e => h (by simp [e])
    have hcs : q ∉ cs := fun e => h (List.mem_cons_of_mem _ e)
    simp [stringsIndexFrom, List.isPrefixOf, hc, ih _ hcs]

theorem stringsIndexFrom_first (q : Char) (a b : Str) (i : Int) (h : q ∉ a) :
    stringsIndexFrom [q] (a ++ q :: b) i = i + a.length := by
  induction a generalizing i with
  | nil => simp [stringsIndexFrom, List.isPrefixOf]
  | cons c cs ih =>
    have hc : ¬ q = c := fun e => h (by simp [e])
    have hcs : q ∉ cs := fun e => h (List.mem_cons_of_mem _ e)
    have hpre : List.isPrefixOf [q] (c :: (cs ++ q :: b)) = false := by
      simp [List.isPrefixOf, hc]
    show stringsIndexFrom [q] (c :: (cs ++ q :: b)) i = _
    rw [stringsIndexFrom, hpre, if_neg (by decide), ih _ hcs]
    simp only [List.length_cons, Nat.cast_add, Nat.cast_one]
    omega

theorem stringsLastIndexFrom_absent (q : Char) (s : Str) (i best : Int) (h : q ∉ s) :
    stringsLastIndexFrom [q] s i best = best := by
  induction s generalizing i best with
  | nil => simp [stringsLastIndexFrom]
  | cons c cs ih =>
    have hc : ¬ q = c := fun e => h (by simp [e])
    have hcs : q ∉ cs := fun e => h (List.mem_cons_of_mem _ e)
    simp [stringsLastIndexFrom, List.isPrefixOf, hc, ih _ _ hcs]

theorem stringsLastIndexFrom_last (q : Char) (a b : Str) (i best : Int) (h : q ∉ b) :
    stringsLastIndexFrom [q] (a ++ q :: b) i best = i + a.length := by
  induction a generalizing i best with
  | nil =>
    show stringsLastIndexFrom [q] (q :: b) i best = _
    simp [stringsLastIndexFrom, List.isPrefixOf, stringsLastIndexFrom_absent q b _ _ h]
  | cons c cs ih =>
    show stringsLastIndexFrom [q] (c :: (cs ++ q :: b)) i best = _
    rw [stringsLastIndexFrom, ih]
    simp only [List.length_cons, Nat.cast_add, Nat.cast_one]
    omega

/-- A text that contains a character splits at its first occurrence. -/
theorem split_at_first (q : Char) (s : Str) (h : q ∈ s) :
    ∃ a b, s = a ++ q :: b ∧ q ∉ a := by
  induction s with
  | nil => exact absurd h (by simp)
  | cons c cs ih =>
    by_cases hc : c = q
    · exact ⟨[], cs, by simp [hc], by simp⟩
    · have hmem : q ∈ cs := by
        rcases List.mem_cons.mp h with h1 | h1
        · exact absurd h1.symm hc
        · exact h1
      obtain ⟨a, b, hs, ha⟩ := ih hmem
      refine ⟨c :: a, b, by simp [hs], ?_⟩
      intro hm
      rcases List.mem_cons.mp hm with h1 | h1
      · exact hc h1.symm
      · exact ha h1

/-- A text that contains a character splits at its last occurrence. -/
theorem split_at_last (q : Char) (s : Str) (h : q ∈ s) :
    ∃ a b, s = a ++ q :: b ∧ q ∉ b := by
  induction s with
  | nil => exact absurd h (by simp)
  | cons c cs ih =>
    by_cases hmem : q ∈ cs
    · obtain ⟨a, b, hs, hb⟩ := ih hmem
      exact ⟨c :: a, b, by simp [hs], hb⟩
    · have hc : c = q := by
        rcases List.mem_cons.mp h with h1 | h1
        · exact h1.symm
        · exact absurd h1 hmem
      exact ⟨[], cs, by simp [hc], hmem⟩

/-- `parseRelValue` panics exactly on a text with fewer than two quotes. -/
theorem parseRelValue_none_iff (s : Str) : parseRelValue s = none ↔ quoteCount s < 2 := by
  have hkey : parseRelValue s = none ↔
      goSlice s (stringsIndex s ['"'] + 1) (stringsLastIndex s ['"']) = none := by
    unfold parseRelValue
    show (match goSlice s (stringsIndex s ['"'] + 1) (stringsLastIndex s ['"']) with
      | none => none
      | some trimmed => some (stringsTrimSpace trimmed)) = none ↔ _
    cases goSlice s (stringsIndex s ['"'] + 1) (stringsLastIndex s ['"']) <;> simp
  rw [hkey]
  unfold quoteCount stringsIndex stringsLastIndex goSlice
  by_cases hq : '"' ∈ s
  · obtain ⟨a, rest, hs, ha⟩ := split_at_first '"' s hq
    subst hs
    rw [stringsIndexFrom_first '"' a rest 0 ha]
    have hcount : (a ++ '"' :: rest).count '"' = rest.count '"' + 1 := by
      rw [List.count_append, List.count_eq_zero_of_not_mem ha, List.count_cons_self]
      omega
    rw [hcount]
    by_cases hr : '"' ∈ rest
    · obtain ⟨m, b, hrest, hb⟩ := split_at_last '"' rest hr
      subst hrest
      have hform : a ++ '"' :: (m ++ '"' :: b) = (a ++ '"' :: m) ++ '"' :: b := by simp
      rw [hform, stringsLastIndexFrom_last '"' (a ++ '"' :: m) b 0 (-1) hb]
      have hpos : 0 < (m ++ '"' :: b).count '"' := List.count_pos_iff.mpr hr
      have hcond : (0 : Int) ≤ 0 + (a.length : Int) + 1 ∧
          0 + (a.length : Int) + 1 ≤ 0 + ((a ++ '"' :: m).length : Int) ∧
          0 + ((a ++ '"' :: m).length : Int) ≤ (((a ++ '"' :: m) ++ '"' :: b).length : Nat) := by
        simp only [List.length_append, List.length_cons, Nat.cast_add, Nat.cast_one]
        omega
      rw [if_pos hcond]
      constructor
      · intro h; exact Option.noConfusion h
      · intro h; omega
    · rw [stringsLastIndexFrom_last '"' a rest 0 (-1) hr]
      have hzero : rest.count '"' = 0 := List.count_eq_zero_of_not_mem hr
      have hcond : ¬ ((0 : Int) ≤ 0 + (a.length : Int) + 1 ∧
          0 + (a.length : Int) + 1 ≤ 0 + (a.length : Int) ∧
          0 + (a.length : Int) ≤ ((a ++ '"' :: rest).length : Nat)) := by
        intro h; omega
      rw [if_neg hcond, hzero]
      simp
  · rw [stringsIndexFrom_absent '"' s 0 hq, stringsLastIndexFrom_absent '"' s 0 (-1) hq,
      List.count_eq_zero_of_not_mem hq]
    have hcond : ¬ ((0 : Int) ≤ -1 + 1 ∧ (-1 + 1 : Int) ≤ -1 ∧ (-1 : Int) ≤ (s.length : Nat)) := by
      intro h; omega
    rw [if_neg hcond]
    simp

/-! ### The pieces of a segment -/

theorem stringsSplit_head (x : Char) (s : Str) :
    ∃ pieces, stringsSplit s [x] = (s.takeWhile fun c => c != x) :: pieces := by
  induction s with
  | nil => exact ⟨[], stringsSplit_nil x⟩
  | cons c cs ih =>
    obtain ⟨pieces, hcs⟩ := ih
    rw [stringsSplit_cons]
    by_cases hc : c = x
    · subst hc
      exact ⟨stringsSplit cs [c], by simp⟩
    · rw [if_neg hc, hcs]
      exact ⟨pieces, by simp [List.takeWhile_cons, hc]⟩

theorem dropWhile_to_first (q : Char) (a b : Str) (h : q ∉ a) :
    (a ++ q :: b).dropWhile (fun c => c != q) = q :: b := by
  induction a with
  | nil => simp [List.dropWhile_cons]
  | cons c cs ih =>
    have hc : ¬ c = q := fun e => h (by simp [e])
    have hcs : q ∉ cs := fun e => h (List.mem_cons_of_mem _ e)
    show List.dropWhile (fun c => c != q) (c :: (cs ++ q :: b)) = q :: b
    rw [List.dropWhile_cons_of_pos (by simpa using hc)]
    exact ih hcs

/-- The pieces of a segment that has a `;`: the text before it, then the piece
after it. -/
theorem stringsSplit_semicolon (segment : Str) (h : ';' ∈ segment) :
    ∃ part0 pieces,
      stringsSplit segment ";".toList = part0 :: pieceAfterFirst ';' segment :: pieces := by
  obtain ⟨a, b, hs, ha⟩ := split_at_first ';' segment h
  subst hs
  obtain ⟨pieces, hb⟩ := stringsSplit_head ';' b
  refine ⟨a, pieces, ?_⟩
  show stringsSplit (a ++ ';' :: b) [';'] = _
  rw [stringsSplit_append ';' a b ha, hb]
  unfold pieceAfterFirst
  rw [dropWhile_to_first ';' a b ha]
  rfl

/-- One pass of the loop panics exactly on a malformed segment. -/
theorem segmentEntry_none_iff (segment : Str) :
    segmentEntry segment = none ↔ malformedSegment segment := by
  unfold malformedSegment
  by_cases h : ';' ∈ segment
  · obtain ⟨part0, pieces, hsplit⟩ := stringsSplit_semicolon segment h
    have hentry : segmentEntry segment =
        match parseRelValue (pieceAfterFirst ';' segment) with
        | none => none
        | some relation => some (relation, parseLinkUrl part0) := by
      unfold segmentEntry
      simp only [hsplit, List.getElem?_cons_zero, List.getElem?_cons_succ]
    rw [hentry]
    constructor
    · intro hnone
      right
      rw [← parseRelValue_none_iff]
      cases hp : parseRelValue (pieceAfterFirst ';' segment) with
      | none => rfl
      | some relation => rw [hp] at hnone; exact Option.noConfusion hnone
    · rintro (hno | hq)
      · exact absurd h hno
      · rw [(parseRelValue_none_iff _).mpr hq]
  · have hsplit : stringsSplit segment ";".toList = [segment] := stringsSplit_absent ';' segment h
    have hentry : segmentEntry segment = none := by
      unfold segmentEntry
      simp only [hsplit, List.getElem?_cons_zero, List.getElem?_cons_succ, List.getElem?_nil]
    exact ⟨fun _ => Or.inl h, fun _ => hentry⟩

/-! ### The loop over the segments -/

theorem parseLinkSegments_cons (segment : Str) (rest : List Str) (acc : GoMap Str) :
    parseLinkSegments (segment :: rest) acc =
      match segmentEntry segment with
      | none => none
      | some entry => parseLinkSegments rest (GoMap.set acc entry.1 entry.2) := by
  rw [parseLinkSegments]
  unfold segmentEntry
  simp only []
  cases (stringsSplit segment ";".toList)[0]? with
  | none => rfl
  | some part0 =>
    dsimp only
    cases (stringsSplit segment ";".toList)[1]? with
    | none => rfl
    | some part1 =>
      dsimp only
      cases parseRelValue part1 <;> rfl

/-- The loop panics exactly when some segment is malformed; otherwise it stores the
entry of every segment, in order. -/
theorem parseLinkSegments_spec (segments : List Str) (acc : GoMap Str) :
    (parseLinkSegments segments acc = none ↔ ∃ segment ∈ segments, malformedSegment segment) ∧
    (∀ m, parseLinkSegments segments acc = some m →
      ∃ entries : List (Str × Str), segments.map segmentEntry = entries.map some ∧
        m = entries.foldl (fun m entry => GoMap.set m entry.1 entry.2) acc) := by
  induction segments generalizing acc with
  | nil =>
    refine ⟨⟨fun h => Option.noConfusion h, fun ⟨_, hm, _⟩ => absurd hm (by simp)⟩, ?_⟩
    intro m hm
    refine ⟨[], rfl, ?_⟩
    injection hm with hm
    exact hm.symm
  | cons segment rest ih =>
    rw [parseLinkSegments_cons]
    cases hentry : segmentEntry segment with
    | none =>
      have hbad := (segmentEntry_none_iff segment).mp hentry
      exact ⟨⟨fun _ => ⟨segment, by simp, hbad⟩, fun _ => rfl⟩,
        fun m hm => Option.noConfusion hm⟩
    | some entry =>
      have hgood : ¬ malformedSegment segment := by
        intro hbad
        rw [(segmentEntry_none_iff segment).mpr hbad] at hentry
        exact Option.noConfusion hentry
      obtain ⟨ih1, ih2⟩ := ih (GoMap.set acc entry.1 entry.2)
      dsimp only
      refine ⟨?_, ?_⟩
      · rw [ih1]
        constructor
        · rintro ⟨s, hs, hbad⟩
          exact ⟨s, List.mem_cons_of_mem _ hs, hbad⟩
        · rintro ⟨s, hs, hbad⟩
          rcases List.mem_cons.mp hs with h1 | h1
          · exact absurd (h1 ▸ hbad) hgood
          · exact ⟨s, h1, hbad⟩
      · intro m hm
        obtain ⟨entries, hmap, hfold⟩ := ih2 m hm
        exact ⟨entry :: entries, by simp [hentry, hmap], by simpa using hfold⟩

/-! ### The mapping the loop builds -/

theorem GoMap.find_set {V : Type} (m : GoMap V) (k : Str) (v : V) (k' : Str) :
    GoMap.find (GoMap.set m k v) k' = if k = k' then some v else GoMap.find m k' := by
  induction m with
  | nil => rfl
  | cons p rest ih =>
    obtain ⟨k0, v0⟩ := p
    by_cases h0 : k0 = k
    · subst h0
      simp only [GoMap.set, if_true, GoMap.find]
      split <;> rfl
    · simp only [GoMap.set, h0, if_false, GoMap.find]
      by_cases h1 : k0 = k'
      · subst h1
        have : ¬ k = k0 := fun e => h0 e.symm
        simp only [if_true, this, if_false]
      · simp only [h1, if_false]
        exact ih

theorem lastUrlFor_cons (entry : Str × Str) (rest : List (Str × Str)) (relation : Str) :
    lastUrlFor (entry :: rest) relation =
      match lastUrlFor rest relation with
      | some url => some url
      | none => if entry.1 = relation then some entry.2 else none := by
  unfold lastUrlFor
  rw [List.reverse_cons, List.find?_append]
  cases rest.reverse.find? (fun e => decide (e.1 = relation)) with
  | some e => rfl
  | none =>
    by_cases h : entry.1 = relation
    · simp [List.find?_cons, h]
    · simp [List.find?_cons, h]

/-- Storing entries one after the other: a relation reads the URL of the last
entry that carries it, or what the map held before. -/
theorem find_foldl_set (entries : List (Str × Str)) (acc : GoMap Str) (relation : Str) :
    GoMap.find (entries.foldl (fun m entry => GoMap.set m entry.1 entry.2) acc) relation =
      match lastUrlFor entries relation with
      | some url => some url
      | none => GoMap.find acc relation := by
  induction entries generalizing acc with
  | nil => rfl
  | cons entry rest ih =>
    rw [List.foldl_cons, ih, lastUrlFor_cons, GoMap.find_set]
    cases lastUrlFor rest relation with
    | some url => rfl
    | none =>
      dsimp only
      split <;> rfl

theorem nodup_keys_foldl_set (entries : List (Str × Str)) (acc : GoMap Str)
    (h : (GoMap.keys acc).Nodup) :
    (GoMap.keys (entries.foldl (fun m entry => GoMap.set m entry.1 entry.2) acc)).Nodup := by
  induction entries generalizing acc with
  | nil => exact h
  | cons entry rest ih => exact ih _ (GoMap.nodup_keys_set _ _ _ h)

/-- C13: `parseLinkHeader` panics exactly when some comma-separated segment of the
header has no `;` or has fewer than two double quotes in the piece after its first
`;`; when it returns, the mapping holds the entry of every segment, one key per
distinct relation, each relation with the URL of the last segment that names it;
and it panics on the empty header. -/
theorem parseLinkHeader_fails_iff (s : Str) :
    (parseLinkHeader s = none ↔
      ∃ segment ∈ stringsSplit s ",".toList, malformedSegment segment) ∧
    (∀ m, parseLinkHeader s = some m →
      ∃ entries : List (Str × Str),
        (stringsSplit s ",".toList).map segmentEntry = entries.map some ∧
        (GoMap.keys m).Nodup ∧
        ∀ relation, GoMap.find m relation = lastUrlFor entries relation) ∧
    parseLinkHeader [] = none := by
  obtain ⟨h1, h2⟩ := parseLinkSegments_spec (stringsSplit s ",".toList) []
  refine ⟨h1, ?_, rfl⟩
  intro m hm
  obtain ⟨entries, hmap, hfold⟩ := h2 m hm
  refine ⟨entries, hmap, ?_, ?_⟩
  · rw [hfold]
    exact nodup_keys_foldl_set entries [] List.nodup_nil
  · intro relation
    rw [hfold, find_foldl_set]
    cases lastUrlFor entries relation <;> rfl

/-- Witness for C13: two segments that name `next`; the second one wins, and the
header that lacks the closing quote panics. -/
theorem parseLinkHeader_fails_iff_witness :
    (∃ entries : List (Str × Str),
      (stringsSplit "<a>; rel=\"next\", <b>; rel=\"next\"".toList ",".toList).map segmentEntry =
        entries.map some ∧
      (GoMap.keys [("next".toList, "b".toList)]).Nodup ∧
      ∀ relation, GoMap.find [("next".toList, "b".toList)] relation =
        lastUrlFor entries relation) ∧
    parseLinkHeader "<a>; rel=\"next".toList = none :=
  ⟨(parseLinkHeader_fails_iff "<a>; rel=\"next\", <b>; rel=\"next\"".toList).2.1
      [("next".toList, "b".toList)] rfl,
   (parseLinkHeader_fails_iff "<a>; rel=\"next".toList).1.mpr
      ⟨"<a>; rel=\"next".toList, by decide, Or.inr (by decide)⟩⟩

/-! ### Basic authentication: what is written and what a server reads back -/

theorem base64Value_char : ∀ k, k < 64 → base64Value (base64Char k) = some k := by decide

theorem base64Char_plain :
    ∀ k, k < 64 → base64Char k ≠ '=' ∧ base64Char k ≠ '\r' ∧ base64Char k ≠ '\n' := by
  decide

/-- Decoding undoes encoding on bytes. -/
theorem base64DecodeGroups_encode (bytes : List Nat) (h : ∀ b ∈ bytes, b < 256) :
    base64DecodeGroups (base64Encode bytes) = some bytes := by
  induction bytes using base64Encode.induct with
  | case1 => rfl
  | case2 a =>
    have ha : a < 256 := h a (by simp)
    have h1 := base64Value_char (a / 4) (by omega)
    have h2 := base64Value_char (a % 4 * 16) (by omega)
    simp only [base64Encode, base64DecodeGroups, and_self, if_true, h1, h2]
    congr 2
    omega
  | case3 a b =>
    have ha : a < 256 := h a (by simp)
    have hb : b < 256 := h b (by simp)
    have h1 := base64Value_char (a / 4) (by omega)
    have h2 := base64Value_char (a % 4 * 16 + b / 16) (by omega)
    have h3 := base64Value_char (b % 16 * 4) (by omega)
    have hne := (base64Char_plain (b % 16 * 4) (by omega)).1
    simp only [base64Encode, base64DecodeGroups, hne, false_and, if_false, and_self, if_true,
      h1, h2, h3]
    congr 2
    · omega
    · congr 1
      omega
  | case4 a b c rest ih =>
    have ha : a < 256 := h a (by simp)
    have hb : b < 256 := h b (by simp)
    have hc : c < 256 := h c (by simp)
    have hrest : ∀ x ∈ rest, x < 256 := fun x hx => h x (by simp [hx])
    have h1 := base64Value_char (a / 4) (by omega)
    have h2 := base64Value_char (a % 4 * 16 + b / 16) (by omega)
    have h3 := base64Value_char (b % 16 * 4 + c / 64) (by omega)
    have h4 := base64Value_char (c % 64) (by omega)
    have hne3 := (base64Char_plain (b % 16 * 4 + c / 64) (by omega)).1
    have hne4 := (base64Char_plain (c % 64) (by omega)).1
    simp only [base64Encode, base64DecodeGroups, hne3, hne4, false_and, if_false, h1, h2, h3,
      h4, ih hrest]
    congr 2
    · omega
    · congr 1
      · omega
      · congr 1
        omega

theorem base64Encode_plain (bytes : List Nat) (h : ∀ b ∈ bytes, b < 256) :
    ∀ ch ∈ base64Encode bytes, (ch != '\r' && ch != '\n') = true := by
  induction bytes using base64Encode.induct with
  | case1 => intro ch hch; exact absurd hch (by simp [base64Encode])
  | case2 a =>
    have ha : a < 256 := h a (by simp)
    have p1 := base64Char_plain (a / 4) (by omega)
    have p2 := base64Char_plain (a % 4 * 16) (by omega)
    intro ch hch
    simp only [base64Encode, List.mem_cons, List.mem_singleton, List.not_mem_nil, or_false]
      at hch
    rcases hch with rfl | rfl | rfl | rfl
    · simp [p1.2.1, p1.2.2]
    · simp [p2.2.1, p2.2.2]
    · decide
    · decide
  | case3 a b =>
    have ha : a < 256 := h a (by simp)
    have hb : b < 256 := h b (by simp)
    have p1 := base64Char_plain (a / 4) (by omega)
    have p2 := base64Char_plain (a % 4 * 16 + b / 16) (by omega)
    have p3 := base64Char_plain (b % 16 * 4) (by omega)
    intro ch hch
    simp only [base64Encode, List.mem_cons, List.mem_singleton, List.not_mem_nil, or_false]
      at hch
    rcases hch with rfl | rfl | rfl | rfl
    · simp [p1.2.1, p1.2.2]
    · simp [p2.2.1, p2.2.2]
    · simp [p3.2.1, p3.2.2]
    · decide
  | case4 a b c rest ih =>
    have ha : a < 256 := h a (by simp)
    have hb : b < 256 := h b (by simp)
    have hc : c < 256 := h c (by simp)
    have hrest : ∀ x ∈ rest, x < 256 := fun x hx => h x (by simp [hx])
    have p1 := base64Char_plain (a / 4) (by omega)
    have p2 := base64Char_plain (a % 4 * 16 + b / 16) (by omega)
    have p3 := base64Char_plain (b % 16 * 4 + c / 64) (by omega)
    have p4 := base64Char_plain (c % 64) (by omega)
    intro ch hch
    simp only [base64Encode, List.mem_cons] at hch
    rcases hch with rfl | rfl | rfl | rfl | hch
    · simp [p1.2.1, p1.2.2]
    · simp [p2.2.1, p2.2.2]
    · simp [p3.2.1, p3.2.2]
    · simp [p4.2.1, p4.2.2]
    · exact ih hrest ch hch

/-- `DecodeString` undoes `EncodeToString` on bytes. -/
theorem base64Decode_encode (bytes : List Nat) (h : ∀ b ∈ bytes, b < 256) :
    base64Decode (base64Encode bytes) = some bytes := by
  unfold base64Decode
  rw [List.filter_eq_self.mpr (base64Encode_plain bytes h)]
  exact base64DecodeGroups_encode bytes h

theorem char_toNat_lt (c : Char) : c.toNat < 0x110000 := by
  have h := c.valid
  show c.val.toNat < 0x110000
  rcases h with h | h
  · have : c.val.toNat < 0xd800 := h
    omega
  · exact h.2

theorem utf8Bytes_lt (c : Char) : ∀ b ∈ utf8Bytes c, b < 256 := by
  have hc := char_toNat_lt c
  intro b hb
  unfold utf8Bytes at hb
  simp only [] at hb
  split at hb
  · simp only [List.mem_singleton] at hb; omega
  · split at hb
    · simp only [List.mem_cons, List.mem_singleton, List.not_mem_nil, or_false] at hb
      rcases hb with rfl | rfl <;> omega
    · split at hb
      · simp only [List.mem_cons, List.mem_singleton, List.not_mem_nil, or_false] at hb
        rcases hb with rfl | rfl | rfl <;> omega
      · simp only [List.mem_cons, List.mem_singleton, List.not_mem_nil, or_false] at hb
        rcases hb with rfl | rfl | rfl | rfl <;> omega

theorem utf8Encode_lt (s : Str) : ∀ b ∈ utf8Encode s, b < 256 := by
  intro b hb
  unfold utf8Encode at hb
  rw [List.mem_flatten] at hb
  obtain ⟨l, hl, hbl⟩ := hb
  obtain ⟨c, _, rfl⟩ := List.mem_map.mp hl
  exact utf8Bytes_lt c b hbl

/-- The byte of the colon occurs in the bytes of a character only for the colon. -/
theorem colon_mem_utf8Bytes (c : Char) (h : 58 ∈ utf8Bytes c) : c = ':' := by
  unfold utf8Bytes at h
  simp only [] at h
  split at h
  · simp only [List.mem_singleton] at h
    apply Char.ext
    apply UInt32.ext
    exact h.symm
  · split at h
    · simp only [List.mem_cons, List.mem_singleton, List.not_mem_nil, or_false] at h
      rcases h with h | h <;> omega
    · split at h
      · simp only [List.mem_cons, List.mem_singleton, List.not_mem_nil, or_false] at h
        rcases h with h | h | h <;> omega
      · simp only [List.mem_cons, List.mem_singleton, List.not_mem_nil, or_false] at h
        rcases h with h | h | h | h <;> omega

theorem colon_not_mem_utf8Encode (s : Str) (h : ':' ∉ s) : 58 ∉ utf8Encode s := by
  intro hb
  unfold utf8Encode at hb
  rw [List.mem_flatten] at hb
  obtain ⟨l, hl, hbl⟩ := hb
  obtain ⟨c, hc, rfl⟩ := List.mem_map.mp hl
  exact h (colon_mem_utf8Bytes c hbl ▸ hc)

theorem utf8Encode_append (s t : Str) : utf8Encode (s ++ t) = utf8Encode s ++ utf8Encode t := by
  simp [utf8Encode]

theorem takeWhile_to_colon (before after : List Nat) (h : 58 ∉ before) :
    (before ++ 58 :: after).takeWhile (fun b => b != 58) = before := by
  induction before with
  | nil => simp [List.takeWhile_cons]
  | cons x xs ih =>
    have hx : ¬ x = 58 := fun e => h (by simp [e])
    have hxs : 58 ∉ xs := fun e => h (List.mem_cons_of_mem _ e)
    simp [List.takeWhile_cons, hx, ih hxs]

theorem dropWhile_to_colon (before after : List Nat) (h : 58 ∉ before) :
    (before ++ 58 :: after).dropWhile (fun b => b != 58) = 58 :: after := by
  induction before with
  | nil => simp [List.dropWhile_cons]
  | cons x xs ih =>
    have hx : ¬ x = 58 := fun e => h (by simp [e])
    have hxs : 58 ∉ xs := fun e => h (List.mem_cons_of_mem _ e)
    simp [List.dropWhile_cons, hx, ih hxs]

theorem cutAtColon_first (before after : List Nat) (h : 58 ∉ before) :
    cutAtColon (before ++ 58 :: after) = some (before, after) := by
  unfold cutAtColon
  rw [if_pos (by simp), takeWhile_to_colon before after h, dropWhile_to_colon before after h]
  rfl

/-- A server reads back the username and the empty password that `SetBasicAuth`
wrote, provided the username has no colon. -/
theorem parseBasicAuth_basicAuth (username : Str) (h : ':' ∉ username) :
    parseBasicAuth ("Basic ".toList ++ basicAuth username []) =
      some (utf8Encode username, []) := by
  have hhead6 : ∀ rest : Str, ("Basic ".toList ++ rest).take 6 = "Basic ".toList :=
    fun rest => rfl
  have hdrop : ∀ rest : Str, ("Basic ".toList ++ rest).drop 6 = rest := fun rest => rfl
  unfold parseBasicAuth
  rw [hhead6, hdrop, if_pos (by decide)]
  unfold basicAuth
  rw [base64Decode_encode _ (utf8Encode_lt _)]
  have hbytes : utf8Encode (username ++ ":".toList ++ []) = utf8Encode username ++ 58 :: [] := by
    rw [List.append_nil, utf8Encode_append]
    rfl
  rw [hbytes]
  exact cutAtColon_first _ _ (colon_not_mem_utf8Encode username h)

/-- The request each of the five methods builds: none when the URL does not parse,
and otherwise one at `baseUrl ++ endpoint` whose `Authorization` header is the one
`SetBasicAuth(c.Key, "")` writes; the receiver is returned as it was. -/
theorem send_request (c : Api) (net : Network) (endpoint : Str) (verb : Verb) :
    (c.send net endpoint verb).api = c ∧
    (net.urlParses (c.baseUrl ++ endpoint) = true →
      ∃ req, (c.send net endpoint verb).request = some req ∧
        req.URL = c.baseUrl ++ endpoint ∧
        GoMap.find req.Header "Authorization".toList =
          some ("Basic ".toList ++ basicAuth c.Key [])) ∧
    (net.urlParses (c.baseUrl ++ endpoint) = false →
      (c.send net endpoint verb).request = none) := by
  have hkey : ¬ ("Authorization".toList = "Content-Type".toList) := by decide
  refine ⟨?_, ?_, ?_⟩
  · cases verb <;>
      simp only [Api.send, Api.get, Api.post, Api.postWithFormData, Api.patch,
        Api.deleteRequest, httpNewRequest] <;>
      split <;> rfl
  · intro hp
    cases verb <;>
      simp only [Api.send, Api.get, Api.post, Api.postWithFormData, Api.patch,
        Api.deleteRequest, httpNewRequest, hp, if_true] <;>
      refine ⟨_, rfl, rfl, ?_⟩ <;>
      simp only [Request.SetBasicAuth, Request.headerSet, GoMap.set, hkey, if_false,
        GoMap.find, if_true]
  · intro hp
    cases verb <;>
      simp only [Api.send, Api.get, Api.post, Api.postWithFormData, Api.patch,
        Api.deleteRequest, httpNewRequest, hp] <;>
      rfl

/-- C1, as stated, fails for a key with a colon: the request `get` builds for the
key `a:b` carries `Authorization: Basic YTpiOg==`, which a server reads as username
`a` and password `b:`, not as username `a:b` and the empty password. -/
theorem colon_key_reads_back_other_username :
    ∃ req, ((New "a:b".toList false).send openNetwork "/invoices".toList .get).request =
        some req ∧
      GoMap.find req.Header "Authorization".toList = some "Basic YTpiOg==".toList ∧
      req.BasicAuth = some (utf8Encode "a".toList, utf8Encode "b:".toList) ∧
      req.BasicAuth ≠ some (utf8Encode "a:b".toList, []) :=
  ⟨_, rfl, by decide, by decide, by decide⟩

/-- C1, amended: for every key, sandbox flag and relative endpoint, each of the five
request methods of a client from `New key sandbox` builds a request whenever the
URL parses, and no request otherwise; every request it builds targets
`baseUrl ++ endpoint`, with the base URL fixed by the sandbox flag, and carries the
header `Authorization: Basic base64(key:)`, which a server reads back as the key for
username and the empty password when the key has no colon; the call leaves the
client, hence its base URL, as it was. -/
theorem request_targets_base_url_with_basic_auth (net : Network) (key : Str) (sandbox : Bool)
    (endpoint : Str) (verb : Verb) :
    (New key sandbox).baseUrl = baseUrlFor sandbox ∧
    ((New key sandbox).send net endpoint verb).api = New key sandbox ∧
    (net.urlParses (baseUrlFor sandbox ++ endpoint) = true →
      ∃ req, ((New key sandbox).send net endpoint verb).request = some req) ∧
    (net.urlParses (baseUrlFor sandbox ++ endpoint) = false →
      ((New key sandbox).send net endpoint verb).request = none) ∧
    ∀ req, ((New key sandbox).send net endpoint verb).request = some req →
      req.URL = baseUrlFor sandbox ++ endpoint ∧
      GoMap.find req.Header "Authorization".toList =
        some ("Basic ".toList ++ basicAuth key []) ∧
      (':' ∉ key → req.BasicAuth = some (utf8Encode key, [])) := by
  have hb : (New key sandbox).baseUrl = baseUrlFor sandbox := by cases sandbox <;> rfl
  obtain ⟨hapi, hbuilt, hnone⟩ := send_request (New key sandbox) net endpoint verb
  have hk : (New key sandbox).Key = key := rfl
  rw [hb, hk] at hbuilt
  rw [hb] at hnone
  refine ⟨hb, hapi, ?_, hnone, ?_⟩
  · intro hp
    obtain ⟨req, hreq, _⟩ := hbuilt hp
    exact ⟨req, hreq⟩
  · intro req hreq
    cases hp : net.urlParses (baseUrlFor sandbox ++ endpoint) with
    | false =>
      rw [hnone hp] at hreq
      exact Option.noConfusion hreq
    | true =>
      obtain ⟨req', hreq', hurl, hauth⟩ := hbuilt hp
      rw [hreq'] at hreq
      injection hreq with hreq
      subst hreq
      refine ⟨hurl, hauth, ?_⟩
      intro hcolon
      have hne : "Basic ".toList ++ basicAuth key [] ≠ [] := by
        show 'B' :: _ ≠ []
        exact List.cons_ne_nil _ _
      unfold Request.BasicAuth
      rw [hauth]
      dsimp only
      rw [if_neg hne]
      exact parseBasicAuth_basicAuth key hcolon

/-- Witness for C1 amended: on a sandbox client with key `key`, each of the five
methods builds a request for `/invoices` at the sandbox URL, with the header
`Authorization: Basic a2V5Og==`, read back as username `key` and empty password. -/
theorem request_targets_base_url_with_basic_auth_witness :
    (∃ req, ((New "key".toList true).send openNetwork "/invoices".toList Verb.get).request =
        some req ∧
      req.URL = "https://api.sandbox.invoiced.com/invoices".toList ∧
      GoMap.find req.Header "Authorization".toList = some "Basic a2V5Og==".toList ∧
      req.BasicAuth = some (utf8Encode "key".toList, [])) ∧
    (∃ req, ((New "key".toList true).send openNetwork "/invoices".toList (Verb.post none)).request =
        some req ∧
      req.URL = "https://api.sandbox.invoiced.com/invoices".toList ∧
      GoMap.find req.Header "Authorization".toList = some "Basic a2V5Og==".toList ∧
      req.BasicAuth = some (utf8Encode "key".toList, [])) ∧
    (∃ req, ((New "key".toList true).send openNetwork "/invoices".toList (Verb.postWithFormData none "multipart/form-data".toList)).request =
        some req ∧
      req.URL = "https://api.sandbox.invoiced.com/invoices".toList ∧
      GoMap.find req.Header "Authorization".toList = some "Basic a2V5Og==".toList ∧
      req.BasicAuth = some (utf8Encode "key".toList, [])) ∧
    (∃ req, ((New "key".toList true).send openNetwork "/invoices".toList (Verb.patch none)).request =
        some req ∧
      req.URL = "https://api.sandbox.invoiced.com/invoices".toList ∧
      GoMap.find req.Header "Authorization".toList = some "Basic a2V5Og==".toList ∧
      req.BasicAuth = some (utf8Encode "key".toList, [])) ∧
    (∃ req, ((New "key".toList true).send openNetwork "/invoices".toList Verb.deleteRequest).request =
        some req ∧
      req.URL = "https://api.sandbox.invoiced.com/invoices".toList ∧
      GoMap.find req.Header "Authorization".toList = some "Basic a2V5Og==".toList ∧
      req.BasicAuth = some (utf8Encode "key".toList, [])) := by
  have w : ∀ verb, ∃ req,
      ((New "key".toList true).send openNetwork "/invoices".toList verb).request = some req ∧
      req.URL = "https://api.sandbox.invoiced.com/invoices".toList ∧
      GoMap.find req.Header "Authorization".toList = some "Basic a2V5Og==".toList ∧
      req.BasicAuth = some (utf8Encode "key".toList, []) := by
    intro verb
    have t := request_targets_base_url_with_basic_auth openNetwork "key".toList true
      "/invoices".toList verb
    obtain ⟨req, hreq⟩ := t.2.2.1 rfl
    exact ⟨req, hreq, (t.2.2.2.2 req hreq).1, (t.2.2.2.2 req hreq).2.1,
      (t.2.2.2.2 req hreq).2.2 (by decide)⟩
  exact ⟨w _, w _, w _, w _, w _⟩

end Invoiced
